import Mathlib

/-!
Verification development for the conversation memory and request-governance
layer of the wodrag repository (`src/wodrag/conversation/`): the message
sanitizer and conversation-id validator (`security.py`), the sliding-window
rate limiter (`security.py`), the bounded in-memory conversation store with
LRU eviction (`storage.py`), the conversation data model and token-bounded
context windowing (`models.py`), and the orchestration service (`service.py`).

Modelling conventions:
* Python `str` values are Lean `String`s; the character-level passes work on
  `List Char` (`String.data`).  Python whitespace handling (`\s`, `str.strip`)
  is modelled by the ASCII whitespace set; non-ASCII Unicode whitespace is
  outside the model.  `re.IGNORECASE` is modelled by ASCII lowercasing.
* `time.time()` values and TTL durations are integer time points (`ℤ`);
  the claims at hand depend only on their ordering and differences.
* Python exceptions are modelled with `Except String`; an operation that
  mutates state and can raise returns the state it had produced at raise time.
* Python's insertion-ordered `dict` / `OrderedDict` is an association list
  with unique keys; assignment to an existing key replaces the value in
  place, assignment to a fresh key appends at the end.
* `secrets.token_urlsafe` ids are nondeterministic; the generated id is an
  explicit `freshId` argument of the service operations that may create one.
-/

namespace Wodrag

/-! ### Character utilities -/

/-- ASCII whitespace, the core of Python's `\s` character class and of
`str.strip` (space, tab, newline, vertical tab, form feed, carriage return). -/
def pyIsSpace (c : Char) : Bool :=
  c == ' ' || c == '\t' || c == '\n' || c == '\x0b' || c == '\x0c' || c == '\r'

/-- ASCII lowercasing, as used by `re.IGNORECASE` on the patterns at hand. -/
def lowerChar (c : Char) : Char :=
  if 'A' ≤ c ∧ c ≤ 'Z' then Char.ofNat (c.toNat + 32) else c

/-- Exact prefix test: `startsWithL pat s` holds when `pat` is a prefix of `s`. -/
def startsWithL : List Char → List Char → Bool
  | [], _ => true
  | _ :: _, [] => false
  | p :: ps, c :: cs => p == c && startsWithL ps cs

/-- Exact (case-sensitive) contiguous-substring test. -/
def containsSub (pat : List Char) : List Char → Bool
  | [] => startsWithL pat []
  | c :: rest => startsWithL pat (c :: rest) || containsSub pat rest

/-- Case-insensitive prefix test; the pattern is given pre-lowercased. -/
def startsCI : List Char → List Char → Bool
  | [], _ => true
  | _ :: _, [] => false
  | p :: ps, c :: cs => p == lowerChar c && startsCI ps cs

/-- Case-insensitive contiguous-substring test (pattern pre-lowercased). -/
def containsCI (pat : List Char) : List Char → Bool
  | [] => startsWithL pat []
  | c :: rest => startsCI pat (c :: rest) || containsCI pat rest

/-! ### The sanitizer's regexes (`security.py`)

`SCRIPT_PATTERN = <script[^>]*>.*?</script>` (IGNORECASE | DOTALL),
`HTML_PATTERN = <[^>]+>`, and
`URL_PATTERN = (?:javascript:|data:|vbscript:|about:)` (IGNORECASE). -/

/-- Consume `[^>]*>` : skip to the first `>` and return the suffix after it
(`none` when there is no `>`). -/
def findCloseTag : List Char → Option (List Char)
  | [] => none
  | c :: rest => if c == '>' then some rest else findCloseTag rest

/-- The lazy `.*?</script>` (DOTALL, IGNORECASE): find the first occurrence of
`</script>` and return the suffix after it. -/
def findEndScriptTag : List Char → Option (List Char)
  | [] => none
  | c :: rest =>
    if c == '<' && startsCI "/script>".data rest then some (rest.drop 8)
    else findEndScriptTag rest

/-- Try to match `<script[^>]*>.*?</script>` at the head of `s`; on success
return the suffix after the match.  `[^>]*` is greedy but cannot pass a `>`,
so the opening tag always ends at the first `>` after `<script`. -/
def matchScriptTag (s : List Char) : Option (List Char) :=
  match s with
  | [] => none
  | c :: rest =>
    if c == '<' && startsCI "script".data rest then
      match findCloseTag (rest.drop 6) with
      | none => none
      | some afterGt => findEndScriptTag afterGt
    else none

/-- Try to match `<[^>]+>` at the head of `s` (at least one non-`>` character
between the brackets); on success return the suffix after the match. -/
def matchHtmlTag (s : List Char) : Option (List Char) :=
  match s with
  | c :: d :: rest => if c == '<' && d != '>' then findCloseTag (d :: rest) else none
  | _ => none

/-- `re.sub(SCRIPT_PATTERN, "", ·)`: scan left to right, deleting each
non-overlapping match and resuming after it.  The fuel only bounds the
recursion; every step consumes at least one character of the input, so
`s.length` fuel always suffices (see `scriptSub`). -/
def scriptSubF : Nat → List Char → List Char
  | 0, s => s
  | _ + 1, [] => []
  | fuel + 1, c :: rest =>
    match matchScriptTag (c :: rest) with
    | some r => scriptSubF fuel r
    | none => c :: scriptSubF fuel rest

/-- Remove every `<script...>...</script>` block, as `SCRIPT_PATTERN.sub("", ·)`. -/
def scriptSub (s : List Char) : List Char := scriptSubF s.length s

/-- `re.sub(HTML_PATTERN, "", ·)`, with the same fuel discipline. -/
def htmlSubF : Nat → List Char → List Char
  | 0, s => s
  | _ + 1, [] => []
  | fuel + 1, c :: rest =>
    match matchHtmlTag (c :: rest) with
    | some r => htmlSubF fuel r
    | none => c :: htmlSubF fuel rest

/-- Strip every HTML tag `<...>` keeping the surrounding text, as
`HTML_PATTERN.sub("", ·)`. -/
def htmlSub (s : List Char) : List Char := htmlSubF s.length s

/-- `URL_PATTERN.search(·)`: the content holds one of the dangerous URL
schemes, case-insensitively. -/
def hasDangerousUrl (s : List Char) : Bool :=
  containsCI "javascript:".data s || containsCI "data:".data s ||
  containsCI "vbscript:".data s || containsCI "about:".data s

/-! ### `html.escape` and whitespace normalization -/

/-- One character of `html.escape(·, quote=True)`.  The Python function is a
chain of `str.replace` calls with `&` first; since no replacement output
contains a character that a later replace targets, the chain coincides with
this per-character map. -/
def escapeChar (c : Char) : List Char :=
  if c == '&' then "&amp;".data
  else if c == '<' then "&lt;".data
  else if c == '>' then "&gt;".data
  else if c == '"' then "&quot;".data
  else if c == '\'' then "&#x27;".data
  else [c]

/-- The characters `html.escape(·, quote=True)` replaces. -/
def isEscapable (c : Char) : Bool :=
  c == '&' || c == '<' || c == '>' || c == '"' || c == '\''

/-- `html.escape(·, quote=True)`. -/
def htmlEscape : List Char → List Char
  | [] => []
  | c :: rest => escapeChar c ++ htmlEscape rest

/-- `re.sub(r"\s+", " ", ·)`: the flag records whether the previous character
belonged to a whitespace run whose single replacement space is already out. -/
def collapseWsAux : Bool → List Char → List Char
  | _, [] => []
  | inRun, c :: rest =>
    if pyIsSpace c then
      if inRun then collapseWsAux true rest else ' ' :: collapseWsAux true rest
    else c :: collapseWsAux false rest

/-- Collapse every whitespace run to a single space. -/
def collapseWs (s : List Char) : List Char := collapseWsAux false s

/-- `str.strip()`: drop whitespace from both ends. -/
def stripWs (s : List Char) : List Char :=
  ((s.dropWhile pyIsSpace).reverse.dropWhile pyIsSpace).reverse

/-! ### `MessageSanitizer` (`security.py`) -/

namespace MessageSanitizer

def MAX_MESSAGE_LENGTH : Nat := 10000

/-- `MessageSanitizer.sanitize_message`.  The `isinstance(content, str)` check
is subsumed by typing.  Raising `ValueError` is modelled by `.error`. -/
def sanitize_message (content : String) : Except String String :=
  if MAX_MESSAGE_LENGTH < content.length then
    .error "Message too long"
  else
    let cleaned := scriptSub content.data
    if hasDangerousUrl cleaned then
      .error "Message contains potentially dangerous URLs"
    else
      .ok ⟨stripWs (collapseWs (htmlEscape (htmlSub cleaned)))⟩

/-- The character class `[a-zA-Z0-9\-_]`. -/
def allowedChar (c : Char) : Bool :=
  c.isAlpha || c.isDigit || c == '-' || c == '_'

/-- `re.match(r"^[a-zA-Z0-9\-_]+$", s)` succeeding: the greedy run of allowed
characters from the start must reach the end of the string, or stop exactly
before a single final newline (Python's `$` also matches just before a
trailing `\n`), and must be non-empty. -/
def idRegexMatch (s : List Char) : Bool :=
  !(s.takeWhile allowedChar).isEmpty &&
    (s.drop (s.takeWhile allowedChar).length == [] ||
      s.drop (s.takeWhile allowedChar).length == ['\n'])

/-- `MessageSanitizer.validate_conversation_id`. -/
def validate_conversation_id (conversation_id : String) : Except String String :=
  if 100 < conversation_id.length then
    .error "Conversation ID too long"
  else if !idRegexMatch conversation_id.data then
    .error "Conversation ID contains invalid characters"
  else
    .ok conversation_id

end MessageSanitizer

/-! ### Ordered-dictionary association lists

Python dictionaries keep insertion order and have unique keys.  Assignment to
an existing key keeps its position; assignment to a fresh key appends. -/

/-- `d.get(k)` / `d[k]`. -/
def odGet {α : Type} (d : List (String × α)) (k : String) : Option α :=
  (d.find? (fun p => p.1 == k)).map (·.2)

/-- `k in d`. -/
def odMem {α : Type} (d : List (String × α)) (k : String) : Bool :=
  d.any (fun p => p.1 == k)

/-- `d[k] = v` on a plain dict: replace in place, or append when fresh. -/
def odSet {α : Type} (d : List (String × α)) (k : String) (v : α) :
    List (String × α) :=
  if odMem d k then d.map (fun p => if p.1 == k then (k, v) else p)
  else d ++ [(k, v)]

/-- `del d[k]` (for present keys) / `d.pop(k, None)`. -/
def odDel {α : Type} (d : List (String × α)) (k : String) : List (String × α) :=
  d.filter (fun p => p.1 != k)

/-! ### `RateLimiter` (`security.py`) -/

structure RateLimiter where
  max_requests : Nat
  window_seconds : ℤ
  max_identifiers : Nat
  requests : List (String × List ℤ)
deriving DecidableEq

/-- `min(lst) if lst else 0`, the eviction key of `RateLimiter.is_allowed`. -/
def histMin (l : List ℤ) : ℤ :=
  match l with
  | [] => 0
  | h :: t => t.foldl min h

/-- `min(self._requests.keys(), key=...)`: the first key (in insertion order)
whose oldest recorded timestamp is smallest.  On an empty dict Python's
`min()` would raise; that point (reachable only with `max_identifiers = 0`)
is outside the modelled region and returns `""`. -/
def oldestIdentifier (d : List (String × List ℤ)) : String :=
  match d with
  | [] => ""
  | p :: rest =>
    (rest.foldl (fun best q => if histMin q.2 < histMin best.2 then q else best) p).1

/-- `RateLimiter.is_allowed`: drop timestamps at or before
`current_time - window_seconds`, refuse (recording nothing) when the surviving
count has reached `max_requests`, otherwise evict the oldest identifier when a
fresh identifier arrives at capacity, append `current_time`, and allow. -/
def RateLimiter.is_allowed (rl : RateLimiter) (identifier : String)
    (current_time : ℤ) : Bool × RateLimiter :=
  let window_start := current_time - rl.window_seconds
  let existing := (odGet rl.requests identifier).getD []
  let recent := existing.filter (fun t => decide (window_start < t))
  if rl.max_requests ≤ recent.length then
    (false, rl)
  else
    let d0 :=
      if !odMem rl.requests identifier ∧ rl.max_identifiers ≤ rl.requests.length
      then odDel rl.requests (oldestIdentifier rl.requests)
      else rl.requests
    (true, { rl with requests := odSet d0 identifier (recent ++ [current_time]) })

/-- Iterate `is_allowed` for one identifier over a list of call times,
collecting the verdicts and threading the limiter state. -/
def callSeq (identifier : String) : RateLimiter → List ℤ → List Bool × RateLimiter
  | rl, [] => ([], rl)
  | rl, t :: ts =>
    let step := rl.is_allowed identifier t
    let rest := callSeq identifier step.2 ts
    (step.1 :: rest.1, rest.2)

/-! ### Conversation data model (`models.py`) -/

structure ConversationMessage where
  role : String
  content : String
  timestamp : ℤ
deriving DecidableEq

structure Conversation where
  id : String
  messages : List ConversationMessage
  created_at : ℤ
  last_updated : ℤ
deriving DecidableEq

/-- `Conversation.add_message`: validate the role, reject blank and oversized
content, then append and refresh `last_updated`.  The `isinstance` check is
subsumed by typing. -/
def Conversation.add_message (c : Conversation) (role content : String)
    (now : ℤ) : Except String Conversation :=
  if !(role == "user" || role == "assistant") then
    .error "Invalid message role"
  else if (stripWs content.data).isEmpty then
    .error "Message content cannot be empty"
  else if 100000 < content.length then
    .error "Message content too long"
  else
    .ok { c with
          messages := c.messages ++ [⟨role, content, now⟩],
          last_updated := now }

/-- One `{"role": ..., "content": ...}` record of the LLM context. -/
structure RoleContent where
  role : String
  content : String
deriving DecidableEq

/-- `len(message.content) // 4 + 10`, the token estimate per message. -/
def tokenEstimate (content : String) : Nat := content.length / 4 + 10

/-- The loop of `get_context_for_llm` over the reversed message list: stop at
the first message that would push the estimate over `maxT` — unless nothing
has been taken yet — and build the context front-first (`insert(0, ...)`). -/
def buildContext (maxT : Nat) :
    List ConversationMessage → Nat → List RoleContent → List RoleContent
  | [], _, acc => acc
  | m :: rest, est, acc =>
    if maxT < est + tokenEstimate m.content ∧ acc ≠ [] then acc
    else buildContext maxT rest (est + tokenEstimate m.content)
      (⟨m.role, m.content⟩ :: acc)

/-- `Conversation.get_context_for_llm`. -/
def Conversation.get_context_for_llm (c : Conversation) (maxT : Nat) :
    List RoleContent :=
  buildContext maxT c.messages.reverse 0 []

/-- Total token estimate of a message list. -/
def estSum (l : List ConversationMessage) : Nat :=
  (l.map (fun m => tokenEstimate m.content)).sum

/-- `Conversation.create_new` with an explicit id (the caller supplies the
generated id; generated ids are never empty). -/
def Conversation.create_new (conversation_id : String) (now : ℤ) : Conversation :=
  { id := conversation_id, messages := [], created_at := now, last_updated := now }

/-! ### `InMemoryConversationStore` (`storage.py`) -/

structure InMemoryConversationStore where
  max_conversations : Nat
  max_messages_per_conversation : Nat
  conversation_ttl : ℤ
  conversations : List (String × Conversation)
deriving DecidableEq

/-- Python's slice `l[-m:]`: the last `m` elements — except that `l[-0:]` is
the whole list, since `-0 == 0`. -/
def lastSlice {α : Type} (l : List α) (m : Nat) : List α :=
  if m = 0 then l else l.drop (l.length - m)

/-- `get_conversation`: miss on absent ids, delete-and-miss on expired ones,
otherwise move the entry to the most-recently-used end and return it. -/
def InMemoryConversationStore.get_conversation
    (s : InMemoryConversationStore) (conversation_id : String) (now : ℤ) :
    Option Conversation × InMemoryConversationStore :=
  match odGet s.conversations conversation_id with
  | none => (none, s)
  | some conv =>
    if s.conversation_ttl < now - conv.last_updated then
      (none, { s with conversations := odDel s.conversations conversation_id })
    else
      (some conv,
        { s with conversations :=
            odDel s.conversations conversation_id ++ [(conversation_id, conv)] })

/-- `while len(d) > max_conversations: del d[next(iter(d))]` — evict from the
least-recently-used (front) end until the cap holds. -/
def evictLoop (maxc : Nat) : List (String × Conversation) → List (String × Conversation)
  | [] => []
  | p :: t => if maxc < (p :: t).length then evictLoop maxc t else p :: t

/-- `save_conversation`: truncate the message list to the most recent
`max_messages_per_conversation` when over the cap, refresh `last_updated`,
insert at the most-recently-used end (`d[id] = conv; d.move_to_end(id)`),
then evict least-recently-used entries while over `max_conversations`. -/
def InMemoryConversationStore.save_conversation
    (s : InMemoryConversationStore) (conversation : Conversation) (now : ℤ) :
    InMemoryConversationStore :=
  let msgs :=
    if s.max_messages_per_conversation < conversation.messages.length
    then lastSlice conversation.messages s.max_messages_per_conversation
    else conversation.messages
  let conv := { conversation with messages := msgs, last_updated := now }
  let d := odDel s.conversations conv.id ++ [(conv.id, conv)]
  { s with conversations := evictLoop s.max_conversations d }

/-- `delete_conversation`: `pop(id, None) is not None`. -/
def InMemoryConversationStore.delete_conversation
    (s : InMemoryConversationStore) (conversation_id : String) :
    Bool × InMemoryConversationStore :=
  (odMem s.conversations conversation_id,
   { s with conversations := odDel s.conversations conversation_id })

/-- `cleanup_expired`: drop every expired conversation, returning the count. -/
def InMemoryConversationStore.cleanup_expired
    (s : InMemoryConversationStore) (now : ℤ) :
    Nat × InMemoryConversationStore :=
  let expired := s.conversations.filter
    (fun p => decide (s.conversation_ttl < now - p.2.last_updated))
  let kept := s.conversations.filter
    (fun p => !decide (s.conversation_ttl < now - p.2.last_updated))
  (expired.length, { s with conversations := kept })

/-- The number of messages held under an id (0 when absent). -/
def msgCount (s : InMemoryConversationStore) (conversation_id : String) : Nat :=
  match odGet s.conversations conversation_id with
  | some c => c.messages.length
  | none => 0

/-- The bounded-store predicate: at most `max_conversations` entries, each
within the per-conversation message cap. -/
def storeInvariant (s : InMemoryConversationStore) : Prop :=
  s.conversations.length ≤ s.max_conversations ∧
  ∀ p ∈ s.conversations, p.2.messages.length ≤ s.max_messages_per_conversation

/-! ### `ConversationService` (`service.py`)

Errors are modelled as strings; `ConversationValidationError` wrapping keeps
the inner message recognisable.  Each operation returns the state it had
produced by the time it returned or raised. -/

structure ConversationService where
  store : InMemoryConversationStore
  limiter : RateLimiter
deriving DecidableEq

/-- The assistant-message length cap: truncate to
`message[:MAX_MESSAGE_LENGTH - 3] + "..."` when over the maximum. -/
def truncateMsg (message : String) : String :=
  if MessageSanitizer.MAX_MESSAGE_LENGTH < message.length
  then ⟨message.data.take (MessageSanitizer.MAX_MESSAGE_LENGTH - 3) ++ "...".data⟩
  else message

/-- `get_or_create_conversation`: rate-limit first; with a truthy id, validate
it, look it up, and return a hit; otherwise create and save a conversation
under the supplied id (when truthy) or the freshly generated one. -/
def ConversationService.get_or_create_conversation (svc : ConversationService)
    (conversation_id client_identifier : String) (now : ℤ) (freshId : String) :
    Except String Conversation × ConversationService :=
  let step := svc.limiter.is_allowed client_identifier now
  let svc1 := { svc with limiter := step.2 }
  if !step.1 then
    (.error "Rate limit exceeded. Please wait before creating more conversations.",
     svc1)
  else if conversation_id != "" then
    match MessageSanitizer.validate_conversation_id conversation_id with
    | .error e => (.error ("Invalid conversation ID: " ++ e), svc1)
    | .ok vid =>
      let looked := svc1.store.get_conversation vid now
      let svc2 := { svc1 with store := looked.2 }
      match looked.1 with
      | some conv => (.ok conv, svc2)
      | none =>
        let conv := Conversation.create_new vid now
        (.ok conv, { svc2 with store := svc2.store.save_conversation conv now })
  else
    let conv := Conversation.create_new freshId now
    (.ok conv, { svc1 with store := svc1.store.save_conversation conv now })

/-- `add_user_message`: rate-limit, sanitize, fetch-or-create, append as role
`user`, persist. -/
def ConversationService.add_user_message (svc : ConversationService)
    (conversation_id message client_identifier : String) (now : ℤ)
    (freshId : String) : Except String Conversation × ConversationService :=
  let step := svc.limiter.is_allowed client_identifier now
  let svc1 := { svc with limiter := step.2 }
  if !step.1 then
    (.error "Rate limit exceeded. Please wait before sending more messages.", svc1)
  else
    match MessageSanitizer.sanitize_message message with
    | .error e => (.error ("Invalid message: " ++ e), svc1)
    | .ok sanitized =>
      let r := svc1.get_or_create_conversation conversation_id client_identifier
        now freshId
      match r.1 with
      | .error e => (.error e, r.2)
      | .ok conv =>
        match conv.add_message "user" sanitized now with
        | .error e => (.error e, r.2)
        | .ok conv2 =>
          (.ok conv2, { r.2 with store := r.2.store.save_conversation conv2 now })

/-- `add_assistant_message`: truncate over-long text with an ellipsis marker
(no sanitization), fetch-or-create, append as role `assistant`, persist. -/
def ConversationService.add_assistant_message (svc : ConversationService)
    (conversation_id message client_identifier : String) (now : ℤ)
    (freshId : String) : Except String Conversation × ConversationService :=
  let message1 := truncateMsg message
  let r := svc.get_or_create_conversation conversation_id client_identifier
    now freshId
  match r.1 with
  | .error e => (.error e, r.2)
  | .ok conv =>
    match conv.add_message "assistant" message1 now with
    | .error e => (.error e, r.2)
    | .ok conv2 =>
      (.ok conv2, { r.2 with store := r.2.store.save_conversation conv2 now })

/-- `get_conversation_context`: empty for an absent (or expired) conversation,
otherwise the token-bounded window of its history. -/
def ConversationService.get_conversation_context (svc : ConversationService)
    (conversation_id : String) (maxT : Nat) (now : ℤ) :
    List RoleContent × ConversationService :=
  let looked := svc.store.get_conversation conversation_id now
  let svc1 := { svc with store := looked.2 }
  match looked.1 with
  | none => ([], svc1)
  | some conv => (conv.get_context_for_llm maxT, svc1)

/-- Fold `save_conversation` over a list of conversations. -/
def saveAll (s : InMemoryConversationStore) (cs : List Conversation) (now : ℤ) :
    InMemoryConversationStore :=
  cs.foldl (fun acc c => acc.save_conversation c now) s

instance (s : InMemoryConversationStore) : Decidable (storeInvariant s) := by
  unfold storeInvariant; infer_instance

instance {ε α : Type} [DecidableEq ε] [DecidableEq α] :
    DecidableEq (Except ε α) := fun x y =>
  match x, y with
  | .error a, .error b =>
    if h : a = b then isTrue (by rw [h]) else isFalse (by simp [h])
  | .ok a, .ok b =>
    if h : a = b then isTrue (by rw [h]) else isFalse (by simp [h])
  | .error _, .ok _ => isFalse (by simp)
  | .ok _, .error _ => isFalse (by simp)

/-- A fresh default-configured service state: empty store (caps 1000 and 50,
24 h TTL in seconds) and empty limiter (100 requests per 3600 s window,
10000 identifiers). -/
def freshService : ConversationService :=
  ⟨⟨1000, 50, 86400, []⟩, ⟨100, 3600, 10000, []⟩⟩

/-! ## Claim theorems -/

/-- C9: tag-split scheme bypass.  `"java<b></b>script:alert(1)"` holds no
contiguous dangerous scheme, so the URL check (which runs before HTML tags
are stripped) passes; tag stripping then reassembles `javascript:` and
`sanitize_message` returns it without raising. -/
theorem C9_bypass :
    containsSub "javascript:".data "java<b></b>script:alert(1)".data = false ∧
    MessageSanitizer.sanitize_message "java<b></b>script:alert(1)"
      = .ok "javascript:alert(1)" ∧
    containsSub "javascript:".data "javascript:alert(1)".data = true := by
  refine ⟨by decide, by rfl, by decide⟩

/-- C1 counterexample: `add_assistant_message` is not total.  On a fresh
service with a valid, absent conversation id and the empty message text, the
appended assistant message fails `add_message`'s blank-content validation, so
the call raises instead of returning an updated conversation. -/
theorem C1_cex :
    (freshService.add_assistant_message "abc" "" "client" 0 "fresh").1
      = .error "Message content cannot be empty" := by
  rfl

/-- C2 counterexample: the claimed "raises iff ... contains a dangerous
scheme" fails.  `"<script>javascript:x</script>"` contains `javascript:` and
is within the length cap, yet `sanitize_message` returns (the empty string)
without raising, because script-block removal runs before the URL check. -/
theorem C2_cex :
    hasDangerousUrl "<script>javascript:x</script>".data = true ∧
    "<script>javascript:x</script>".length ≤ MessageSanitizer.MAX_MESSAGE_LENGTH ∧
    MessageSanitizer.sanitize_message "<script>javascript:x</script>" = .ok "" := by
  refine ⟨by decide, by decide, by rfl⟩

/-- C3 counterexample: with `max_requests = 0` the claim's recovery clause
fails.  The (N+1)th = first call is refused, and a later call far outside the
window is still refused, where the claim says it returns true again. -/
theorem C3_cex :
    callSeq "a" ⟨0, 3600, 10000, []⟩ [0, 100000]
      = ([false, false], ⟨0, 3600, 10000, []⟩) := by
  rfl

/-- C4 counterexample: with `max_messages_per_conversation = 0` the bounded
predicate is not preserved: Python's `messages[-0:]` slice is the whole list,
so saving a one-message conversation into an invariant-satisfying empty store
leaves a conversation whose message count exceeds the cap. -/
theorem C4_cex :
    storeInvariant (⟨1, 0, 86400, []⟩ : InMemoryConversationStore) ∧
    ¬ storeInvariant
        ((⟨1, 0, 86400, []⟩ : InMemoryConversationStore).save_conversation
          ⟨"a", [⟨"user", "hi", 0⟩], 0, 0⟩ 0) := by
  refine ⟨by decide, by decide⟩

/-- C6 counterexample: sanitization is not idempotent.  `"&"` is accepted and
becomes `"&amp;"`, which is itself accepted but re-escapes to
`"&amp;amp;"` ≠ `"&amp;"`. -/
theorem C6_cex :
    MessageSanitizer.sanitize_message "&" = .ok "&amp;" ∧
    MessageSanitizer.sanitize_message "&amp;" = .ok "&amp;amp;" ∧
    ("&amp;amp;" : String) ≠ "&amp;" := by
  refine ⟨by rfl, by rfl, by decide⟩

/-- C7 counterexample: `"abc\n"` contains a character outside
`[A-Za-z0-9_-]`, so the claim says it is rejected; but Python's `$` also
matches just before a trailing newline, so `validate_conversation_id`
accepts it and returns it unchanged (newline included). -/
theorem C7_cex :
    MessageSanitizer.allowedChar '\n' = false ∧
    '\n' ∈ "abc\n".data ∧
    MessageSanitizer.validate_conversation_id "abc\n" = .ok "abc\n" := by
  refine ⟨by decide, by decide, by rfl⟩

/-- C8 counterexample: content containing a dangerous scheme does not always
make `add_user_message` raise.  When the scheme sits inside a removed
`<script>` block, sanitization succeeds and the message is stored, growing
the conversation. -/
theorem C8_cex :
    containsSub "javascript:".data
      "hello <script>javascript:x</script> world".data = true ∧
    (freshService.add_user_message "abc"
        "hello <script>javascript:x</script> world" "client" 0 "fresh").1
      = .ok ⟨"abc", [⟨"user", "hello world", 0⟩], 0, 0⟩ := by
  refine ⟨by decide, by rfl⟩

lemma sanitize_message_error_iff (content : String) :
    (∃ e, MessageSanitizer.sanitize_message content = .error e) ↔
    (MessageSanitizer.MAX_MESSAGE_LENGTH < content.length ∨
      hasDangerousUrl (scriptSub content.data) = true) := by
  unfold MessageSanitizer.sanitize_message
  by_cases h1 : MessageSanitizer.MAX_MESSAGE_LENGTH < content.length
  · simp [h1]
  · by_cases h2 : hasDangerousUrl (scriptSub content.data) = true
    · simp [h1, h2]
    · simp [h1, h2]

/-- C2 (amended): `sanitize_message` raises exactly when the content exceeds
the maximum length or when the content *after removing `<script>...</script>`
blocks* still contains a recognized dangerous URL scheme; every other string
input is returned sanitized.  (The not-a-string case is subsumed by typing.) -/
theorem C2_amended (content : String) :
    (∃ e, MessageSanitizer.sanitize_message content = .error e) ↔
    (MessageSanitizer.MAX_MESSAGE_LENGTH < content.length ∨
      hasDangerousUrl (scriptSub content.data) = true) :=
  sanitize_message_error_iff content

lemma drop_length_takeWhile (p : Char → Bool) :
    ∀ l : List Char, l.drop (l.takeWhile p).length = l.dropWhile p
  | [] => rfl
  | c :: rest => by
    by_cases h : p c
    · simpa [List.takeWhile_cons, List.dropWhile_cons, h] using
        drop_length_takeWhile p rest
    · simp [List.takeWhile_cons, List.dropWhile_cons, h]

lemma takeWhile_append_all (p : Char → Bool) (r : List Char) :
    ∀ t : List Char, (∀ c ∈ t, p c = true) →
      (t ++ r).takeWhile p = t ++ r.takeWhile p
  | [], _ => rfl
  | c :: t, h => by
    have hc : p c = true := h c (by simp)
    simpa [List.takeWhile_cons, hc] using
      takeWhile_append_all p r t (fun d hd => h d (by simp [hd]))

/-- The regex acceptance of `validate_conversation_id`, characterised: the id
is non-empty and consists of allowed characters, except that a single
trailing newline after a non-empty allowed run is also accepted (Python's
`$`). -/
lemma idRegexMatch_iff (l : List Char) :
    MessageSanitizer.idRegexMatch l = true ↔
    ((∀ c ∈ l, MessageSanitizer.allowedChar c = true) ∧ l ≠ []) ∨
      (∃ t, l = t ++ ['\n'] ∧ t ≠ [] ∧
        ∀ c ∈ t, MessageSanitizer.allowedChar c = true) := by
  unfold MessageSanitizer.idRegexMatch
  rw [drop_length_takeWhile]
  simp only [Bool.and_eq_true, Bool.or_eq_true, beq_iff_eq, Bool.not_eq_true',
    List.isEmpty_eq_false]
  constructor
  · rintro ⟨hrun, hrest | hrest⟩
    · left
      have hall : ∀ c ∈ l, MessageSanitizer.allowedChar c = true := by
        rw [List.dropWhile_eq_nil_iff] at hrest
        exact hrest
      refine ⟨hall, ?_⟩
      intro hnil
      exact hrun (by simp [hnil])
    · right
      refine ⟨l.takeWhile MessageSanitizer.allowedChar, ?_, hrun, ?_⟩
      · conv_lhs => rw [(List.takeWhile_append_dropWhile
          (p := MessageSanitizer.allowedChar) (l := l)).symm]
        rw [hrest]
      · intro c hc
        exact List.mem_takeWhile_imp hc
  · rintro (⟨hall, hne⟩ | ⟨t, rfl, htne, hall⟩)
    · have : l.takeWhile MessageSanitizer.allowedChar = l :=
        List.takeWhile_eq_self_iff.mpr hall
      rw [this]
      refine ⟨hne, Or.inl ?_⟩
      rw [List.dropWhile_eq_nil_iff]
      exact hall
    · have h1 : (t ++ ['\n']).takeWhile MessageSanitizer.allowedChar = t := by
        rw [takeWhile_append_all _ _ t hall]
        simp [List.takeWhile_cons, MessageSanitizer.allowedChar]
      have h2 : (t ++ ['\n']).dropWhile MessageSanitizer.allowedChar = ['\n'] := by
        have := List.takeWhile_append_dropWhile
          (p := MessageSanitizer.allowedChar) (l := t ++ ['\n'])
        rw [h1] at this
        exact List.append_cancel_left this
      rw [h1, h2]
      exact ⟨htne, Or.inr rfl⟩

/-- C7 (amended): `validate_conversation_id` accepts exactly the strings of
length at most 100 that are a non-empty run of `[A-Za-z0-9_-]` characters,
optionally followed by one trailing newline (an artifact of Python's `$`
matching before a final `\n`); in particular the empty string is rejected.
Accepted ids are returned unchanged. -/
theorem C7_amended (s : String) :
    (MessageSanitizer.validate_conversation_id s = .ok s ↔
      (s.length ≤ 100 ∧
        (((∀ c ∈ s.data, MessageSanitizer.allowedChar c = true) ∧ s.data ≠ []) ∨
          (∃ t, s.data = t ++ ['\n'] ∧ t ≠ [] ∧
            ∀ c ∈ t, MessageSanitizer.allowedChar c = true)))) ∧
    (∀ r, MessageSanitizer.validate_conversation_id s = .ok r → r = s) := by
  constructor
  · constructor
    · intro h
      unfold MessageSanitizer.validate_conversation_id at h
      by_cases h1 : 100 < s.length
      · simp [h1] at h
      · by_cases h2 : MessageSanitizer.idRegexMatch s.data = true
        · exact ⟨Nat.not_lt.mp h1, (idRegexMatch_iff s.data).mp h2⟩
        · simp [h1, h2] at h
    · rintro ⟨hle, hchar⟩
      unfold MessageSanitizer.validate_conversation_id
      have h2 : MessageSanitizer.idRegexMatch s.data = true :=
        (idRegexMatch_iff s.data).mpr hchar
      simp [Nat.not_lt.mpr hle, h2]
  · intro r hr
    unfold MessageSanitizer.validate_conversation_id at hr
    by_cases h1 : 100 < s.length
    · simp [h1] at hr
    · by_cases h2 : MessageSanitizer.idRegexMatch s.data = true
      · simp [h1, h2] at hr
        exact hr.symm
      · simp [h1, h2] at hr

/-- The closed witness of `C7_amended` at `s = "abc"`. -/
theorem C7_witness :
    MessageSanitizer.validate_conversation_id "abc" = .ok "abc" ∧
    ("abc" : String) = "abc" := by
  have h := C7_amended "abc"
  have hok : MessageSanitizer.validate_conversation_id "abc" = .ok "abc" :=
    h.1.mpr ⟨by decide, Or.inl ⟨by decide, by decide⟩⟩
  exact ⟨hok, h.2 "abc" hok⟩

/-- C8 (amended): when the *script-stripped* content still contains a
dangerous URL scheme (as in `"click javascript:doEvil()"`),
`add_user_message` raises a validation error — either the sanitizer's or,
when rate-limited, the rate-limit error — and the store is untouched: it is
not fetched, mutated, or re-saved, so every conversation's message count is
unchanged. -/
theorem C8_amended (svc : ConversationService)
    (cid msg client freshId : String) (now : ℤ)
    (h : hasDangerousUrl (scriptSub msg.data) = true) :
    (∃ e, (svc.add_user_message cid msg client now freshId).1 = .error e) ∧
    ((svc.add_user_message cid msg client now freshId).2).store = svc.store := by
  obtain ⟨e, he⟩ := (sanitize_message_error_iff msg).mpr (Or.inr h)
  unfold ConversationService.add_user_message
  cases hb : (svc.limiter.is_allowed client now).1
  · simp [hb]
  · simp [hb, he]

/-- The closed witness of `C8_amended` on a fresh service and the claim's own
example message. -/
theorem C8_witness :
    hasDangerousUrl (scriptSub "click javascript:doEvil()".data) = true ∧
    (∃ e, (freshService.add_user_message "abc" "click javascript:doEvil()"
      "client" 0 "fresh").1 = .error e) ∧
    ((freshService.add_user_message "abc" "click javascript:doEvil()"
      "client" 0 "fresh").2).store = freshService.store := by
  have h := C8_amended freshService "abc" "click javascript:doEvil()"
    "client" "fresh" 0 (by decide)
  exact ⟨by decide, h.1, h.2⟩

lemma stripWs_eq_nil_iff (l : List Char) :
    stripWs l = [] ↔ ∀ c ∈ l, pyIsSpace c = true := by
  unfold stripWs
  rw [List.reverse_eq_nil_iff, List.dropWhile_eq_nil_iff]
  constructor
  · intro h c hc
    have hsplit : c ∈ l.takeWhile pyIsSpace ++ l.dropWhile pyIsSpace := by
      rw [List.takeWhile_append_dropWhile]
      exact hc
    rcases List.mem_append.mp hsplit with h1 | h1
    · exact List.mem_takeWhile_imp h1
    · exact h c (List.mem_reverse.mpr h1)
  · intro h c hc
    exact h c ((List.dropWhile_sublist pyIsSpace).mem (List.mem_reverse.mp hc))

lemma truncateMsg_blank (msg : String) (h : stripWs msg.data ≠ []) :
    stripWs (truncateMsg msg).data ≠ [] := by
  unfold truncateMsg
  by_cases hlen : MessageSanitizer.MAX_MESSAGE_LENGTH < msg.length
  · simp only [hlen, if_true]
    intro hnil
    have hdot : ('.' : Char) ∈
        msg.data.take (MessageSanitizer.MAX_MESSAGE_LENGTH - 3) ++ "...".data :=
      List.mem_append.mpr (Or.inr (by decide))
    have := (stripWs_eq_nil_iff _).mp hnil '.' hdot
    simp [pyIsSpace] at this
  · simp only [hlen, if_false]
    exact h

lemma truncateMsg_length (msg : String) :
    (truncateMsg msg).length ≤ MessageSanitizer.MAX_MESSAGE_LENGTH := by
  unfold truncateMsg
  by_cases hlen : MessageSanitizer.MAX_MESSAGE_LENGTH < msg.length
  · simp only [hlen, if_true]
    show (msg.data.take (MessageSanitizer.MAX_MESSAGE_LENGTH - 3)
      ++ "...".data).length ≤ MessageSanitizer.MAX_MESSAGE_LENGTH
    rw [List.length_append, List.length_take]
    have h1 : min (MessageSanitizer.MAX_MESSAGE_LENGTH - 3) msg.data.length
        ≤ MessageSanitizer.MAX_MESSAGE_LENGTH - 3 := Nat.min_le_left _ _
    have h2 : ("...".data).length = 3 := by decide
    unfold MessageSanitizer.MAX_MESSAGE_LENGTH at h1 ⊢
    omega
  · simp only [hlen, if_false]
    exact Nat.not_lt.mp hlen

/-- `add_message` succeeds on role `"assistant"` whenever the content is not
whitespace-only and fits the 100000-character cap, appending the message. -/
lemma add_message_assistant_ok (c : Conversation) (content : String) (now : ℤ)
    (h1 : stripWs content.data ≠ []) (h2 : content.length ≤ 100000) :
    c.add_message "assistant" content now =
      .ok { c with messages := c.messages ++ [⟨"assistant", content, now⟩],
                   last_updated := now } := by
  unfold Conversation.add_message
  have hne : (stripWs content.data).isEmpty = false :=
    List.isEmpty_eq_false.mpr h1
  simp [hne, Nat.not_lt.mpr h2]

/-- `get_or_create_conversation` succeeds whenever the limiter admits the
request and the supplied id is either empty (falsy) or accepted by the
validator. -/
lemma get_or_create_ok (svc : ConversationService)
    (cid client freshId : String) (now : ℤ)
    (hrate : (svc.limiter.is_allowed client now).1 = true)
    (hid : cid = "" ∨ MessageSanitizer.validate_conversation_id cid = .ok cid) :
    ∃ conv,
      (svc.get_or_create_conversation cid client now freshId).1 = .ok conv := by
  unfold ConversationService.get_or_create_conversation
  rcases hid with hid | hid
  · subst hid
    simp [hrate]
  · by_cases hcid : cid = ""
    · subst hcid
      simp [hrate]
    · have hne : (cid != "") = true := by
        simp [bne_iff_ne, hcid]
      simp only [hrate, Bool.not_true, Bool.false_eq_true, if_false, hne,
        if_true, hid]
      cases hlook : (svc.store.get_conversation cid now).1 with
      | some conv => exact ⟨conv, by simp [hlook]⟩
      | none => exact ⟨Conversation.create_new cid now, by simp [hlook]⟩

/-- C1 (amended): `add_assistant_message` never rejects for length — text over
the cap is truncated to `message[:9997] + "..."` — and returns the updated
conversation whose last message is the (possibly truncated) assistant text;
but it is not failure-free in general: it still raises when the rate limiter
refuses the client, when the supplied conversation id is malformed, or when
the message is whitespace-only (see `C1_cex`). -/
theorem C1_amended (svc : ConversationService)
    (cid msg client freshId : String) (now : ℤ)
    (hrate : (svc.limiter.is_allowed client now).1 = true)
    (hid : cid = "" ∨ MessageSanitizer.validate_conversation_id cid = .ok cid)
    (hmsg : stripWs msg.data ≠ []) :
    ∃ conv svc1,
      svc.add_assistant_message cid msg client now freshId = (.ok conv, svc1) ∧
      conv.messages.getLast? = some ⟨"assistant", truncateMsg msg, now⟩ ∧
      (MessageSanitizer.MAX_MESSAGE_LENGTH < msg.length →
        truncateMsg msg =
          ⟨msg.data.take (MessageSanitizer.MAX_MESSAGE_LENGTH - 3) ++ "...".data⟩) ∧
      (msg.length ≤ MessageSanitizer.MAX_MESSAGE_LENGTH → truncateMsg msg = msg) := by
  obtain ⟨conv0, hget⟩ := get_or_create_ok svc cid client freshId now hrate hid
  have hadd := add_message_assistant_ok conv0 (truncateMsg msg) now
    (truncateMsg_blank msg hmsg)
    (le_trans (truncateMsg_length msg) (by decide))
  unfold ConversationService.add_assistant_message
  simp only [hget, hadd]
  refine ⟨_, _, rfl, ?_, ?_, ?_⟩
  · simp
  · intro hlen
    unfold truncateMsg
    simp [hlen]
  · intro hlen
    unfold truncateMsg
    simp [Nat.not_lt.mpr hlen]

/-- The closed witness of `C1_amended` on a fresh service. -/
theorem C1_witness :
    (freshService.limiter.is_allowed "client" 0).1 = true ∧
    stripWs "hi there".data ≠ [] ∧
    (∃ conv svc1,
      freshService.add_assistant_message "abc" "hi there" "client" 0 "fresh"
        = (.ok conv, svc1) ∧
      conv.messages.getLast? = some ⟨"assistant", truncateMsg "hi there", 0⟩ ∧
      (MessageSanitizer.MAX_MESSAGE_LENGTH < ("hi there" : String).length →
        truncateMsg "hi there" = ⟨"hi there".data.take
          (MessageSanitizer.MAX_MESSAGE_LENGTH - 3) ++ "...".data⟩) ∧
      (("hi there" : String).length ≤ MessageSanitizer.MAX_MESSAGE_LENGTH →
        truncateMsg "hi there" = "hi there")) := by
  refine ⟨by decide, by decide, ?_⟩
  exact C1_amended freshService "abc" "hi there" "client" "fresh" 0
    (by decide) (Or.inr (by rfl)) (by decide)

/-! ### Rate limiter lemmas (C3) -/

/-- A call on a fresh (empty) limiter with positive caps is allowed and
recorded. -/
lemma is_allowed_empty (N M : ℕ) (w : ℤ) (id : String) (now : ℤ)
    (hN : 0 < N) (hM : 0 < M) :
    RateLimiter.is_allowed ⟨N, w, M, []⟩ id now
      = (true, ⟨N, w, M, [(id, [now])]⟩) := by
  unfold RateLimiter.is_allowed
  simp [odGet, odMem, odSet, Nat.not_le.mpr hN, Nat.not_le.mpr hM]

/-- A call whose identifier already has an in-window history shorter than the
cap is allowed and appended to that history. -/
lemma is_allowed_record (N M : ℕ) (w : ℤ) (id : String) (hist : List ℤ)
    (now : ℤ) (hlt : hist.length < N) (hwin : ∀ t ∈ hist, now - w < t) :
    RateLimiter.is_allowed ⟨N, w, M, [(id, hist)]⟩ id now
      = (true, ⟨N, w, M, [(id, hist ++ [now])]⟩) := by
  unfold RateLimiter.is_allowed
  have hfilter : hist.filter (fun t => decide (now - w < t)) = hist :=
    List.filter_eq_self.mpr (fun a ha => decide_eq_true (hwin a ha))
  simp [odGet, odMem, odSet, List.find?, hfilter, Nat.not_le.mpr hlt]

/-- A call whose identifier has an in-window history at the cap is refused and
nothing is recorded. -/
lemma is_allowed_refuse (N M : ℕ) (w : ℤ) (id : String) (hist : List ℤ)
    (now : ℤ) (hlen : N ≤ hist.length) (hwin : ∀ t ∈ hist, now - w < t) :
    RateLimiter.is_allowed ⟨N, w, M, [(id, hist)]⟩ id now
      = (false, ⟨N, w, M, [(id, hist)]⟩) := by
  unfold RateLimiter.is_allowed
  have hfilter : hist.filter (fun t => decide (now - w < t)) = hist :=
    List.filter_eq_self.mpr (fun a ha => decide_eq_true (hwin a ha))
  simp [odGet, List.find?, hfilter, hlen]

/-- A call whose identifier's history lies entirely outside the window is
allowed (for a positive cap): the stale timestamps are discarded. -/
lemma is_allowed_stale (N M : ℕ) (w : ℤ) (id : String) (hist : List ℤ)
    (now : ℤ) (hN : 0 < N) (hstale : ∀ t ∈ hist, t ≤ now - w) :
    (RateLimiter.is_allowed ⟨N, w, M, [(id, hist)]⟩ id now).1 = true := by
  unfold RateLimiter.is_allowed
  have hfilter : hist.filter (fun t => decide (now - w < t)) = [] := by
    rw [List.filter_eq_nil_iff]
    intro a ha
    simpa using hstale a ha
  simp [odGet, List.find?, hfilter, Nat.not_le.mpr hN]

lemma callSeq_append (id : String) :
    ∀ (xs ys : List ℤ) (rl : RateLimiter),
      callSeq id rl (xs ++ ys)
        = ((callSeq id rl xs).1 ++ (callSeq id (callSeq id rl xs).2 ys).1,
           (callSeq id (callSeq id rl xs).2 ys).2)
  | [], ys, rl => by simp [callSeq]
  | x :: xs, ys, rl => by
    simp [callSeq, callSeq_append id xs ys]

/-- A run of calls that all fit the window and the count cap: every call is
allowed and the whole run is appended to the history in order. -/
lemma callSeq_run (id : String) (N M : ℕ) (w : ℤ) (us : List ℤ) :
    ∀ hist : List ℤ,
      hist.length + us.length ≤ N →
      (∀ u ∈ us, ∀ t ∈ hist, u - w < t) →
      (∀ u ∈ us, ∀ v ∈ us, u - w < v) →
      callSeq id ⟨N, w, M, [(id, hist)]⟩ us
        = (List.replicate us.length true, ⟨N, w, M, [(id, hist ++ us)]⟩) := by
  induction us with
  | nil =>
    intro hist _ _ _
    simp [callSeq]
  | cons u us ih =>
    intro hist hlen hwin1 hwin2
    have hlt : hist.length < N := by
      simp only [List.length_cons] at hlen
      omega
    have hstep := is_allowed_record N M w id hist u hlt (hwin1 u (by simp))
    have hrec := ih (hist ++ [u])
      (by
        simp only [List.length_cons] at hlen
        simp only [List.length_append, List.length_cons, List.length_nil]
        omega)
      (by
        intro v hv t ht
        rcases List.mem_append.mp ht with ht | ht
        · exact hwin1 v (by simp [hv]) t ht
        · have htu : t = u := by simpa using ht
          rw [htu]
          exact hwin2 v (by simp [hv]) u (by simp))
      (fun v hv t ht => hwin2 v (by simp [hv]) t (by simp [ht]))
    simp [callSeq, hstep, hrec, List.replicate_succ, List.append_assoc]

/-- C3 (amended): rate limiter exactness for `max_requests = N ≥ 1` and a
positive identifier cap.  For call times all within one window of each other,
the first `N` calls are allowed, the `(N+1)`th is refused without recording,
and once all recorded timestamps are a full window in the past a further call
is allowed again.  (For `N = 0` the code refuses forever — see `C3_cex`.) -/
theorem C3_amended (N M : ℕ) (w : ℤ) (identifier : String) (ts : List ℤ)
    (t2 : ℤ) (hN : 0 < N) (hM : 0 < M)
    (hlen : ts.length = N + 1)
    (hwin : ∀ s ∈ ts, ∀ t ∈ ts, s - w < t)
    (hafter : ∀ t ∈ ts.take N, t ≤ t2 - w) :
    (callSeq identifier ⟨N, w, M, []⟩ ts).1
      = List.replicate N true ++ [false] ∧
    (callSeq identifier ⟨N, w, M, []⟩ ts).2.requests
      = [(identifier, ts.take N)] ∧
    ((callSeq identifier ⟨N, w, M, []⟩ ts).2.is_allowed identifier t2).1
      = true := by
  have htakelen : (ts.take N).length = N := by
    rw [List.length_take, hlen]
    omega
  obtain ⟨tN, hdrop⟩ : ∃ tN, ts.drop N = [tN] := by
    apply List.length_eq_one.mp
    rw [List.length_drop, hlen]
    omega
  have hsplit : ts.take N ++ [tN] = ts := by
    rw [← hdrop]
    exact List.take_append_drop N ts
  obtain ⟨u, us, htake⟩ : ∃ u us, ts.take N = u :: us := by
    cases h : ts.take N with
    | nil => rw [h] at htakelen; simp at htakelen; omega
    | cons u us => exact ⟨u, us, rfl⟩
  have htsub : ∀ t ∈ ts.take N, t ∈ ts := fun t ht => List.take_subset N ts ht
  have htN : tN ∈ ts := by
    have : tN ∈ ts.drop N := by simp [hdrop]
    exact List.drop_subset N ts this
  -- the first stage: N allowed calls
  have hstage1 : callSeq identifier ⟨N, w, M, []⟩ (ts.take N)
      = (List.replicate N true, ⟨N, w, M, [(identifier, ts.take N)]⟩) := by
    rw [htake]
    have hstep := is_allowed_empty N M w identifier u hN hM
    have hrun := callSeq_run identifier N M w us [u]
      (by
        have : (u :: us).length = N := by rw [← htake, htakelen]
        simp only [List.length_cons] at this
        simp only [List.length_singleton]
        omega)
      (by
        intro v hv t ht
        have htu : t = u := by simpa using ht
        rw [htu]
        exact hwin v (htsub v (by simp [htake, hv])) u (htsub u (by simp [htake])))
      (fun v hv t ht =>
        hwin v (htsub v (by simp [htake, hv])) t (htsub t (by simp [htake, ht])))
    have hN' : N = us.length + 1 := by
      have hcons : (u :: us).length = N := by rw [← htake, htakelen]
      simp only [List.length_cons] at hcons
      omega
    simp only [callSeq, hstep, hrun, List.singleton_append]
    rw [hN', List.replicate_succ]
  -- the (N+1)th call is refused without recording
  have hrefuse := is_allowed_refuse N M w identifier (ts.take N) tN
    (le_of_eq htakelen.symm)
    (fun t ht => hwin tN htN t (htsub t ht))
  have hfull : callSeq identifier ⟨N, w, M, []⟩ ts
      = (List.replicate N true ++ [false],
         ⟨N, w, M, [(identifier, ts.take N)]⟩) := by
    conv_lhs => rw [← hsplit]
    rw [callSeq_append, hstage1]
    simp [callSeq, hrefuse]
  refine ⟨by rw [hfull], by rw [hfull], ?_⟩
  rw [hfull]
  exact is_allowed_stale N M w identifier (ts.take N) t2 hN hafter

/-- The closed witness of `C3_amended` at `N = 2`, window 10, calls at
times 0, 1, 2 and a recovery call at time 20. -/
theorem C3_witness :
    (callSeq "a" ⟨2, 10, 1, []⟩ [0, 1, 2]).1 = [true, true, false] ∧
    (callSeq "a" ⟨2, 10, 1, []⟩ [0, 1, 2]).2.requests = [("a", [0, 1])] ∧
    ((callSeq "a" ⟨2, 10, 1, []⟩ [0, 1, 2]).2.is_allowed "a" 20).1 = true := by
  have h := C3_amended 2 1 10 "a" [0, 1, 2] 20 (by decide) (by decide)
    (by decide) (by decide) (by decide)
  refine ⟨h.1.trans (by decide), h.2.1.trans (by decide), h.2.2⟩

/-! ### Store lemmas (C4) -/

lemma evictLoop_eq_drop (maxc : Nat) :
    ∀ d : List (String × Conversation), evictLoop maxc d = d.drop (d.length - maxc)
  | [] => by simp [evictLoop]
  | p :: t => by
    unfold evictLoop
    by_cases h : maxc < (p :: t).length
    · simp only [h, if_true]
      rw [evictLoop_eq_drop maxc t]
      have hs : (p :: t).length - maxc = (t.length - maxc) + 1 := by
        simp only [List.length_cons] at h ⊢
        omega
      rw [hs, List.drop_succ_cons]
    · simp only [h, if_false]
      have hz : (p :: t).length - maxc = 0 := by
        simp only [List.length_cons] at h ⊢
        omega
      rw [hz, List.drop_zero]

lemma odMem_iff_mem_keys {α : Type} (d : List (String × α)) (k : String) :
    odMem d k = true ↔ k ∈ d.map Prod.fst := by
  unfold odMem
  rw [List.any_eq_true]
  constructor
  · rintro ⟨p, hp, hbeq⟩
    exact List.mem_map.mpr ⟨p, hp, by simpa using hbeq.symm⟩
  · rintro hk
    obtain ⟨p, hp, hpk⟩ := List.mem_map.mp hk
    exact ⟨p, hp, by simp [hpk]⟩

lemma odDel_of_not_mem {α : Type} (d : List (String × α)) (k : String)
    (h : odMem d k = false) : odDel d k = d := by
  unfold odDel
  apply List.filter_eq_self.mpr
  intro p hp
  unfold odMem at h
  have hne := List.any_eq_false.mp h p hp
  simpa [bne] using hne

lemma mem_odDel {α : Type} {d : List (String × α)} {k : String}
    {p : String × α} (h : p ∈ odDel d k) : p ∈ d :=
  List.mem_of_mem_filter h

lemma odDel_key_ne {α : Type} {d : List (String × α)} {k : String}
    {p : String × α} (h : p ∈ odDel d k) : (p.1 == k) = false := by
  have := List.of_mem_filter h
  simpa [bne] using this

lemma odDel_length_lt {α : Type} (d : List (String × α)) (k : String)
    (h : odMem d k = true) : (odDel d k).length < d.length := by
  induction d with
  | nil => simp [odMem] at h
  | cons q t ih =>
    by_cases hq : (q.1 == k) = true
    · have hskip : (q.1 != k) = false := by simp [bne, hq]
      unfold odDel
      rw [List.filter_cons, hskip]
      simp only [if_false, List.length_cons]
      exact Nat.lt_succ_of_le (List.length_filter_le _ t)
    · have hkeep : (q.1 != k) = true := by simp [bne, hq]
      have ht : odMem t k = true := by
        unfold odMem at h ⊢
        rcases List.any_eq_true.mp h with ⟨p, hp, hbeq⟩
        rcases List.mem_cons.mp hp with rfl | hp'
        · exact absurd hbeq hq
        · exact List.any_eq_true.mpr ⟨p, hp', hbeq⟩
      unfold odDel
      rw [List.filter_cons, hkeep]
      simpa using ih ht

lemma drop_append_of_le {α : Type} (A B : List α) (j : Nat) (h : j ≤ A.length) :
    (A ++ B).drop j = A.drop j ++ B := by
  rw [List.drop_append_eq_append_drop, Nat.sub_eq_zero_of_le h, List.drop_zero]

/-- The save operation stores exactly the (possibly truncated) conversation
at the most-recently-used end and evicts from the front. -/
lemma save_conversations_eq (s : InMemoryConversationStore)
    (c : Conversation) (now : ℤ) :
    (s.save_conversation c now).conversations
      = evictLoop s.max_conversations
          (odDel s.conversations c.id ++
            [(c.id, { c with
                messages :=
                  if s.max_messages_per_conversation < c.messages.length
                  then lastSlice c.messages s.max_messages_per_conversation
                  else c.messages,
                last_updated := now })]) := rfl

lemma storeInvariant_save (s : InMemoryConversationStore) (c : Conversation)
    (now : ℤ) (hm : 1 ≤ s.max_messages_per_conversation)
    (h : storeInvariant s) : storeInvariant (s.save_conversation c now) := by
  obtain ⟨hlen, hmem⟩ := h
  constructor
  · show (s.save_conversation c now).conversations.length ≤ s.max_conversations
    rw [save_conversations_eq, evictLoop_eq_drop, List.length_drop]
    omega
  · intro p hp
    rw [save_conversations_eq, evictLoop_eq_drop] at hp
    have hp' := List.drop_subset _ _ hp
    rcases List.mem_append.mp hp' with h1 | h1
    · exact hmem p (mem_odDel h1)
    · have hp2 : p.2.messages =
          (if s.max_messages_per_conversation < c.messages.length
           then lastSlice c.messages s.max_messages_per_conversation
           else c.messages) := by
        have : p = (c.id, { c with
            messages :=
              if s.max_messages_per_conversation < c.messages.length
              then lastSlice c.messages s.max_messages_per_conversation
              else c.messages,
            last_updated := now }) := by simpa using h1
        rw [this]
      show p.2.messages.length ≤ (s.save_conversation c now).max_messages_per_conversation
      show p.2.messages.length ≤ s.max_messages_per_conversation
      rw [hp2]
      by_cases hc : s.max_messages_per_conversation < c.messages.length
      · simp only [hc, if_true]
        unfold lastSlice
        have hm0 : s.max_messages_per_conversation ≠ 0 := by omega
        simp only [hm0, if_false, List.length_drop]
        omega
      · simp only [hc, if_false]
        omega

lemma storeInvariant_get (s : InMemoryConversationStore)
    (conversation_id : String) (now : ℤ) (h : storeInvariant s) :
    storeInvariant (s.get_conversation conversation_id now).2 := by
  obtain ⟨hlen, hmem⟩ := h
  unfold InMemoryConversationStore.get_conversation
  cases hget : odGet s.conversations conversation_id with
  | none => exact ⟨hlen, hmem⟩
  | some conv =>
    have hconv_mem : ∃ k, (k, conv) ∈ s.conversations := by
      unfold odGet at hget
      cases hfind : s.conversations.find? (fun p => p.1 == conversation_id) with
      | none => rw [hfind] at hget; simp at hget
      | some p =>
        rw [hfind] at hget
        refine ⟨p.1, ?_⟩
        have hmemp := List.mem_of_find?_eq_some hfind
        have hp2 : p.2 = conv := by simpa using hget
        rw [← hp2]
        exact hmemp
    have hmemmem : odMem s.conversations conversation_id = true := by
      unfold odGet at hget
      cases hfind : s.conversations.find? (fun p => p.1 == conversation_id) with
      | none => rw [hfind] at hget; simp at hget
      | some p =>
        have hmem' := List.mem_of_find?_eq_some hfind
        have hp := List.find?_some hfind
        exact List.any_eq_true.mpr ⟨p, hmem', hp⟩
    by_cases hexp : s.conversation_ttl < now - conv.last_updated
    · simp only [hexp, if_true]
      refine ⟨?_, ?_⟩
      · show (odDel s.conversations conversation_id).length ≤ s.max_conversations
        exact le_trans (le_of_lt (odDel_length_lt _ _ hmemmem)) hlen
      · intro p hp
        exact hmem p (mem_odDel hp)
    · simp only [hexp, if_false]
      refine ⟨?_, ?_⟩
      · show (odDel s.conversations conversation_id
            ++ [(conversation_id, conv)]).length ≤ s.max_conversations
        rw [List.length_append]
        have := odDel_length_lt s.conversations conversation_id hmemmem
        simp only [List.length_cons, List.length_nil]
        omega
      · intro p hp
        rcases List.mem_append.mp hp with h1 | h1
        · exact hmem p (mem_odDel h1)
        · have hpp : p = (conversation_id, conv) := by simpa using h1
          rw [hpp]
          obtain ⟨k, h2⟩ := hconv_mem
          exact hmem (k, conv) h2

lemma storeInvariant_delete (s : InMemoryConversationStore)
    (conversation_id : String) (h : storeInvariant s) :
    storeInvariant (s.delete_conversation conversation_id).2 := by
  obtain ⟨hlen, hmem⟩ := h
  refine ⟨?_, ?_⟩
  · show (odDel s.conversations conversation_id).length ≤ s.max_conversations
    exact le_trans (List.length_filter_le _ _) hlen
  · intro p hp
    exact hmem p (mem_odDel hp)

lemma storeInvariant_cleanup (s : InMemoryConversationStore) (now : ℤ)
    (h : storeInvariant s) : storeInvariant (s.cleanup_expired now).2 := by
  obtain ⟨hlen, hmem⟩ := h
  refine ⟨?_, ?_⟩
  · exact le_trans (List.length_filter_le _ _) hlen
  · intro p hp
    exact hmem p (List.mem_of_mem_filter hp)

/-- Saving a conversation with a fresh id appends its key at the
most-recently-used end and evicts from the front past the cap. -/
lemma save_keys_fresh (s : InMemoryConversationStore) (c : Conversation)
    (now : ℤ) (hfresh : odMem s.conversations c.id = false) :
    (s.save_conversation c now).conversations.map Prod.fst
      = (s.conversations.map Prod.fst ++ [c.id]).drop
          (s.conversations.length + 1 - s.max_conversations) := by
  rw [save_conversations_eq, odDel_of_not_mem _ _ hfresh, evictLoop_eq_drop]
  rw [List.map_drop, List.map_append]
  simp

lemma saveAll_max (s : InMemoryConversationStore) (c : Conversation) (now : ℤ) :
    (s.save_conversation c now).max_conversations = s.max_conversations := rfl

lemma saveAll_keys (now : ℤ) :
    ∀ (cs : List Conversation) (s : InMemoryConversationStore),
      (s.conversations.map Prod.fst ++ cs.map Conversation.id).Nodup →
      s.conversations.length ≤ s.max_conversations →
      (saveAll s cs now).conversations.map Prod.fst
        = (s.conversations.map Prod.fst ++ cs.map Conversation.id).drop
            (s.conversations.length + cs.length - s.max_conversations)
  | [], s, _, hle => by
    show s.conversations.map Prod.fst = _
    simp only [List.map_nil, List.append_nil, List.length_nil, Nat.add_zero]
    rw [Nat.sub_eq_zero_of_le hle, List.drop_zero]
  | c :: cs, s, hnodup, hle => by
    have hfresh : odMem s.conversations c.id = false := by
      rw [← Bool.not_eq_true, odMem_iff_mem_keys]
      intro hmem
      have hdisj := List.disjoint_of_nodup_append hnodup
      exact hdisj hmem (by simp)
    have hkeys := save_keys_fresh s c now hfresh
    have hlen1 : (s.save_conversation c now).conversations.length
        = s.conversations.length + 1
          - (s.conversations.length + 1 - s.max_conversations) := by
      have := congrArg List.length hkeys
      simpa using this
    have hle1 : (s.save_conversation c now).conversations.length
        ≤ (s.save_conversation c now).max_conversations := by
      rw [saveAll_max, hlen1]
      omega
    have hsub : ((s.save_conversation c now).conversations.map Prod.fst
          ++ cs.map Conversation.id).Sublist
        ((s.conversations.map Prod.fst ++ [c.id]) ++ cs.map Conversation.id) := by
      rw [hkeys]
      exact (List.drop_sublist _ _).append_right _
    have hnodup1 : ((s.save_conversation c now).conversations.map Prod.fst
        ++ cs.map Conversation.id).Nodup := by
      refine List.Nodup.sublist hsub ?_
      simpa [List.append_assoc] using hnodup
    have ih := saveAll_keys now cs (s.save_conversation c now) hnodup1 hle1
    have hunfold : saveAll s (c :: cs) now
        = saveAll (s.save_conversation c now) cs now := rfl
    rw [hunfold, ih, hkeys, saveAll_max]
    have hj : s.conversations.length + 1 - s.max_conversations
        ≤ (s.conversations.map Prod.fst ++ [c.id]).length := by
      simp only [List.length_append, List.length_map, List.length_cons,
        List.length_nil]
      omega
    have hXY : s.conversations.map Prod.fst ++ (c :: cs).map Conversation.id
        = (s.conversations.map Prod.fst ++ [c.id]) ++ cs.map Conversation.id := by
      simp
    rw [← drop_append_of_le _ _ _ hj, List.drop_drop, hXY]
    congr 1
    rw [hlen1]
    simp only [List.length_cons]
    omega

/-- The key list of the fully saved store (from empty): the most recent
`max_conversations` ids in order. -/
lemma saveAll_from_empty (M k : Nat) (mpc : Nat) (ttl : ℤ)
    (cs : List Conversation) (now : ℤ)
    (hlen : cs.length = M + k) (hnodup : (cs.map Conversation.id).Nodup) :
    (saveAll ⟨M, mpc, ttl, []⟩ cs now).conversations.map Prod.fst
      = (cs.map Conversation.id).drop k := by
  have h := saveAll_keys now cs ⟨M, mpc, ttl, []⟩ (by simpa using hnodup)
    (by simp)
  simpa [hlen] using h

/-- Looking up the just-saved id (with a positive conversation cap) finds the
conversation with the newest `max_messages_per_conversation` messages kept
and `last_updated` refreshed. -/
lemma odGet_save (s : InMemoryConversationStore) (c : Conversation) (now : ℤ)
    (hmc : 1 ≤ s.max_conversations)
    (hm : 1 ≤ s.max_messages_per_conversation) :
    odGet (s.save_conversation c now).conversations c.id
      = some { c with
          messages := c.messages.drop
            (c.messages.length - s.max_messages_per_conversation),
          last_updated := now } := by
  have hmsg : (if s.max_messages_per_conversation < c.messages.length
      then lastSlice c.messages s.max_messages_per_conversation
      else c.messages)
    = c.messages.drop (c.messages.length - s.max_messages_per_conversation) := by
    by_cases hc : s.max_messages_per_conversation < c.messages.length
    · simp only [hc, if_true]
      unfold lastSlice
      have hm0 : s.max_messages_per_conversation ≠ 0 := by omega
      simp [hm0]
    · simp only [hc, if_false]
      rw [Nat.sub_eq_zero_of_le (Nat.not_lt.mp hc), List.drop_zero]
  rw [save_conversations_eq, evictLoop_eq_drop, hmsg]
  set cv : Conversation := { c with
      messages := c.messages.drop
        (c.messages.length - s.max_messages_per_conversation),
      last_updated := now } with hcv
  set d0 := odDel s.conversations c.id with hd0
  have hj : (d0 ++ [(c.id, cv)]).length - s.max_conversations ≤ d0.length := by
    simp only [List.length_append, List.length_cons, List.length_nil]
    omega
  rw [drop_append_of_le _ _ _ hj]
  unfold odGet
  rw [List.find?_append]
  have hnone : (d0.drop ((d0 ++ [(c.id, cv)]).length - s.max_conversations)).find?
      (fun p => p.1 == c.id) = none := by
    apply List.find?_eq_none.mpr
    intro p hp
    have hpd : p ∈ odDel s.conversations c.id := by
      rw [hd0] at hp
      exact List.drop_subset _ _ hp
    simpa using odDel_key_ne hpd
  rw [hnone]
  simp

/-- C4 (amended): bounded-store behaviour, for a per-conversation message cap
of at least 1 (Python's `messages[-0:]` slice keeps everything, so the cap-0
configuration breaks the invariant — see `C4_cex`).  (a) `save_conversation`,
`get_conversation`, `delete_conversation` and `cleanup_expired` preserve the
invariant that at most `max_conversations` conversations are held, each with
at most `max_messages_per_conversation` messages; (b) saving
`max_conversations + k` distinct conversations into an empty store leaves
exactly the `max_conversations` most recently saved ones, in LRU order
(oldest evicted first); (c) at save time an over-long message list is
truncated to its newest `max_messages_per_conversation` entries — the kept
list is a suffix, so the oldest messages are dropped, never the newest. -/
theorem C4_amended :
    (∀ (s : InMemoryConversationStore) (c : Conversation) (now : ℤ),
      1 ≤ s.max_messages_per_conversation → storeInvariant s →
      storeInvariant (s.save_conversation c now)) ∧
    (∀ (s : InMemoryConversationStore) (cid : String) (now : ℤ),
      storeInvariant s → storeInvariant (s.get_conversation cid now).2) ∧
    (∀ (s : InMemoryConversationStore) (cid : String),
      storeInvariant s → storeInvariant (s.delete_conversation cid).2) ∧
    (∀ (s : InMemoryConversationStore) (now : ℤ),
      storeInvariant s → storeInvariant (s.cleanup_expired now).2) ∧
    (∀ (M k mpc : Nat) (ttl : ℤ) (cs : List Conversation) (now : ℤ),
      cs.length = M + k → (cs.map Conversation.id).Nodup →
      (saveAll ⟨M, mpc, ttl, []⟩ cs now).conversations.map Prod.fst
        = (cs.map Conversation.id).drop k) ∧
    (∀ (s : InMemoryConversationStore) (c : Conversation) (now : ℤ),
      1 ≤ s.max_conversations → 1 ≤ s.max_messages_per_conversation →
      odGet (s.save_conversation c now).conversations c.id
        = some { c with
            messages := c.messages.drop
              (c.messages.length - s.max_messages_per_conversation),
            last_updated := now } ∧
      (c.messages.drop
        (c.messages.length - s.max_messages_per_conversation)) <:+ c.messages) := by
  refine ⟨storeInvariant_save, storeInvariant_get,
    storeInvariant_delete, storeInvariant_cleanup,
    ?_, ?_⟩
  · intro M k mpc ttl cs now hlen hnodup
    exact saveAll_from_empty M k mpc ttl cs now hlen hnodup
  · intro s c now hmc hm
    exact ⟨odGet_save s c now hmc hm, List.drop_suffix _ _⟩

/-- The closed witness of `C4_amended`: invariant preservation on a concrete
save, LRU eviction with `max_conversations = 1` and two distinct saves, and
the saved-conversation lookup. -/
theorem C4_witness :
    storeInvariant ((⟨2, 5, 100, []⟩ : InMemoryConversationStore).save_conversation
      ⟨"a", [⟨"user", "hi", 0⟩], 0, 0⟩ 0) ∧
    (saveAll ⟨1, 5, 100, []⟩ [⟨"a", [], 0, 0⟩, ⟨"b", [], 0, 0⟩] 0).conversations.map
      Prod.fst = ["b"] ∧
    odGet ((⟨2, 5, 100, []⟩ : InMemoryConversationStore).save_conversation
      ⟨"a", [⟨"user", "hi", 0⟩], 0, 0⟩ 0).conversations "a"
      = some ⟨"a", [⟨"user", "hi", 0⟩], 0, 0⟩ := by
  have h := C4_amended
  refine ⟨h.1 ⟨2, 5, 100, []⟩ ⟨"a", [⟨"user", "hi", 0⟩], 0, 0⟩ 0
    (by decide) (by decide), ?_, ?_⟩
  · have hlru := h.2.2.2.2.1 1 1 5 100 [⟨"a", [], 0, 0⟩, ⟨"b", [], 0, 0⟩] 0
      (by decide) (by decide)
    exact hlru.trans (by decide)
  · have hget := (h.2.2.2.2.2 ⟨2, 5, 100, []⟩ ⟨"a", [⟨"user", "hi", 0⟩], 0, 0⟩ 0
      (by decide) (by decide)).1
    exact hget.trans (by decide)

/-! ### Context windowing lemmas (C5) -/

lemma estSum_cons (m : ConversationMessage) (l : List ConversationMessage) :
    estSum (m :: l) = tokenEstimate m.content + estSum l := by
  simp [estSum]

lemma estSum_reverse (l : List ConversationMessage) :
    estSum l.reverse = estSum l := by
  simp only [estSum, List.map_reverse]
  exact List.sum_reverse _

lemma odGet_eq_none {α : Type} (d : List (String × α)) (k : String)
    (h : odMem d k = false) : odGet d k = none := by
  unfold odGet
  rw [List.find?_eq_none.mpr]
  · rfl
  · intro p hp
    have := List.any_eq_false.mp h p hp
    simpa using this

/-- The run of the context-window loop once the accumulator is non-empty: it
takes the longest prefix of the remaining (newest-to-oldest) messages whose
running estimate stays within budget, and stops at the first overflow. -/
lemma buildContext_run (maxT : Nat) (rev : List ConversationMessage) :
    ∀ (est : Nat) (acc : List RoleContent), acc ≠ [] →
    ∃ k, k ≤ rev.length ∧
      buildContext maxT rev est acc
        = ((rev.take k).reverse.map (fun m => RoleContent.mk m.role m.content))
            ++ acc ∧
      (∀ j, j < k → est + estSum (rev.take (j + 1)) ≤ maxT) ∧
      (k < rev.length → maxT < est + estSum (rev.take (k + 1))) := by
  induction rev with
  | nil =>
    intro est acc hacc
    refine ⟨0, Nat.le_refl _, by simp [buildContext], ?_, ?_⟩
    · intro j hj
      omega
    · intro h
      simp at h
  | cons m rest ih =>
    intro est acc hacc
    by_cases hover : maxT < est + tokenEstimate m.content
    · refine ⟨0, Nat.zero_le _, ?_, ?_, ?_⟩
      · rw [buildContext, if_pos ⟨hover, hacc⟩]
        simp
      · intro j hj
        omega
      · intro _
        simp only [List.take_succ_cons, List.take_zero, estSum_cons]
        simp only [estSum, List.map_nil, List.sum_nil]
        omega
    · obtain ⟨k, hk, heq, hbound, hovf⟩ :=
        ih (est + tokenEstimate m.content) (⟨m.role, m.content⟩ :: acc) (by simp)
      refine ⟨k + 1, by simpa using Nat.succ_le_succ hk, ?_, ?_, ?_⟩
      · rw [buildContext, if_neg (by
          rintro ⟨h1, _⟩
          exact hover h1)]
        rw [heq]
        simp [List.take_succ_cons, List.append_assoc]
      · intro j hj
        cases j with
        | zero =>
          simp only [List.take_succ_cons, List.take_zero, estSum_cons]
          simp only [estSum, List.map_nil, List.sum_nil]
          omega
        | succ j' =>
          have hb := hbound j' (by omega)
          simp only [List.take_succ_cons, estSum_cons] at hb ⊢
          omega
      · intro hlt
        have ho := hovf (by simpa using Nat.lt_of_succ_lt_succ hlt)
        simp only [List.take_succ_cons, estSum_cons] at ho ⊢
        omega

lemma drop_eq_reverse_take (l : List ConversationMessage) (j : Nat) :
    l.drop (l.length - j) = (l.reverse.take j).reverse := by
  rw [List.take_reverse, List.reverse_reverse]

/-- The windowing property of `get_context_for_llm`: the result is the newest
suffix of the history in chronological order, at least one message when any
exist, within budget whenever two or more are included, and bounded by the
first overflowing older message. -/
lemma get_context_spec (c : Conversation) (maxT : Nat) :
    ∃ n, n ≤ c.messages.length ∧
      c.get_context_for_llm maxT
        = (c.messages.drop n).map (fun m => RoleContent.mk m.role m.content) ∧
      (c.messages ≠ [] → n < c.messages.length) ∧
      (2 ≤ c.messages.length - n → estSum (c.messages.drop n) ≤ maxT) ∧
      (0 < n → maxT < estSum (c.messages.drop (n - 1))) := by
  by_cases hnil : c.messages = []
  · refine ⟨0, by simp [hnil], ?_, by simp [hnil], by simp [hnil], by omega⟩
    simp [hnil, Conversation.get_context_for_llm, buildContext]
  · have hrevne : c.messages.reverse ≠ [] := by simpa using hnil
    obtain ⟨m0, restRev, hrev⟩ : ∃ m0 restRev,
        c.messages.reverse = m0 :: restRev := by
      cases h : c.messages.reverse with
      | nil => exact absurd h hrevne
      | cons m0 restRev => exact ⟨m0, restRev, rfl⟩
    have hL : c.messages.length = restRev.length + 1 := by
      have := congrArg List.length hrev
      simpa using this
    obtain ⟨k, hk, heq, hbound, hovf⟩ := buildContext_run maxT restRev
      (0 + tokenEstimate m0.content) [⟨m0.role, m0.content⟩] (by simp)
    have hstep : c.get_context_for_llm maxT
        = buildContext maxT restRev (0 + tokenEstimate m0.content)
            [⟨m0.role, m0.content⟩] := by
      unfold Conversation.get_context_for_llm
      rw [hrev, buildContext, if_neg (by rintro ⟨_, h2⟩; exact h2 rfl)]
    have hksucc : k + 1 ≤ c.messages.length := by omega
    have htake : c.messages.reverse.take (k + 1) = m0 :: restRev.take k := by
      rw [hrev, List.take_succ_cons]
    have hdropn : c.messages.drop (c.messages.length - (k + 1))
        = (m0 :: restRev.take k).reverse := by
      rw [drop_eq_reverse_take, htake]
    refine ⟨c.messages.length - (k + 1), Nat.sub_le _ _, ?_, ?_, ?_, ?_⟩
    · rw [hstep, heq, hdropn]
      simp
    · intro _
      omega
    · intro h2
      have hkk : 1 ≤ k := by omega
      have hb := hbound (k - 1) (by omega)
      have htk : restRev.take (k - 1 + 1) = restRev.take k := by
        congr 1
        omega
      rw [htk] at hb
      rw [hdropn, estSum_reverse, estSum_cons]
      omega
    · intro hn
      have hklt : k < restRev.length := by omega
      have ho := hovf hklt
      have hdropn1 : c.messages.drop (c.messages.length - (k + 1) - 1)
          = (m0 :: restRev.take (k + 1)).reverse := by
        have hidx : c.messages.length - (k + 1) - 1
            = c.messages.length - (k + 2) := by omega
        rw [hidx, drop_eq_reverse_take, hrev, List.take_succ_cons]
      rw [hdropn1, estSum_reverse, estSum_cons]
      omega

/-- C5: context windowing.  For an absent conversation the service returns
the empty context; for a present, unexpired one it returns
`get_context_for_llm`, which walks the history newest-to-oldest at
`len(content) / 4 + 10` estimated tokens per message, always includes at
least one message when any exist, returns a chronological suffix of
`{role, content}` records, stays within `max_tokens` whenever it returns two
or more messages, and stops exactly before the first message whose inclusion
would exceed the budget. -/
theorem C5_confirmed :
    (∀ (svc : ConversationService) (cid : String) (maxT : Nat) (now : ℤ),
      odMem svc.store.conversations cid = false →
      (svc.get_conversation_context cid maxT now).1 = []) ∧
    (∀ (svc : ConversationService) (cid : String) (maxT : Nat) (now : ℤ)
      (conv : Conversation),
      odGet svc.store.conversations cid = some conv →
      now - conv.last_updated ≤ svc.store.conversation_ttl →
      (svc.get_conversation_context cid maxT now).1
        = conv.get_context_for_llm maxT) ∧
    (∀ (c : Conversation) (maxT : Nat), c.messages ≠ [] →
      c.get_context_for_llm maxT ≠ []) ∧
    (∀ (c : Conversation) (maxT : Nat), ∃ n, n ≤ c.messages.length ∧
      c.get_context_for_llm maxT
        = (c.messages.drop n).map (fun m => RoleContent.mk m.role m.content) ∧
      (c.messages ≠ [] → n < c.messages.length) ∧
      (2 ≤ c.messages.length - n → estSum (c.messages.drop n) ≤ maxT) ∧
      (0 < n → maxT < estSum (c.messages.drop (n - 1)))) := by
  refine ⟨?_, ?_, ?_, fun c maxT => get_context_spec c maxT⟩
  · intro svc cid maxT now h
    unfold ConversationService.get_conversation_context
    unfold InMemoryConversationStore.get_conversation
    rw [odGet_eq_none _ _ h]
  · intro svc cid maxT now conv hget hexp
    unfold ConversationService.get_conversation_context
    unfold InMemoryConversationStore.get_conversation
    rw [hget]
    simp only [Nat.not_lt]
    rw [if_neg (Int.not_lt.mpr hexp)]
  · intro c maxT hne
    obtain ⟨n, hlen, heq, hlt, _, _⟩ := get_context_spec c maxT
    rw [heq]
    have hdrop : c.messages.drop n ≠ [] := by
      intro hdnil
      have := List.drop_eq_nil_iff.mp hdnil
      have := hlt hne
      omega
    simpa using hdrop

/-- The closed witness of `C5_confirmed`: an absent id yields `[]`, a present
unexpired conversation yields its windowed context, and a non-empty history
yields a non-empty context. -/
theorem C5_witness :
    ((⟨⟨1000, 50, 86400, [("abc", ⟨"abc", [⟨"user", "hello", 0⟩], 0, 0⟩)]⟩,
        ⟨100, 3600, 10000, []⟩⟩ : ConversationService).get_conversation_context
      "zzz" 50 0).1 = [] ∧
    ((⟨⟨1000, 50, 86400, [("abc", ⟨"abc", [⟨"user", "hello", 0⟩], 0, 0⟩)]⟩,
        ⟨100, 3600, 10000, []⟩⟩ : ConversationService).get_conversation_context
      "abc" 50 0).1
      = (⟨"abc", [⟨"user", "hello", 0⟩], 0, 0⟩ : Conversation).get_context_for_llm
          50 ∧
    (⟨"abc", [⟨"user", "hello", 0⟩], 0, 0⟩ : Conversation).get_context_for_llm 50
      ≠ [] := by
  have h := C5_confirmed
  refine ⟨?_, ?_, ?_⟩
  · exact h.1 _ "zzz" 50 0 (by decide)
  · exact h.2.1 _ "abc" 50 0 ⟨"abc", [⟨"user", "hello", 0⟩], 0, 0⟩
      (by rfl) (by decide)
  · exact h.2.2.1 ⟨"abc", [⟨"user", "hello", 0⟩], 0, 0⟩ 50 (by decide)

/-! ### Service-path lemmas (C10) -/

lemma odGet_mem {α : Type} {d : List (String × α)} {k : String} {v : α}
    (h : odGet d k = some v) : ∃ p ∈ d, p.1 = k ∧ p.2 = v := by
  unfold odGet at h
  cases hfind : d.find? (fun p => p.1 == k) with
  | none => rw [hfind] at h; simp at h
  | some p =>
    rw [hfind] at h
    have hmem := List.mem_of_find?_eq_some hfind
    have hkey := List.find?_some hfind
    exact ⟨p, hmem, by simpa using hkey, by simpa using h⟩

lemma odGet_append_last {α : Type} (d : List (String × α)) (k : String) (v : α) :
    odGet (odDel d k ++ [(k, v)]) k = some v := by
  unfold odGet
  rw [List.find?_append, List.find?_eq_none.mpr
    (fun p hp => by simpa using odDel_key_ne hp)]
  simp

lemma get_conversation_none (s : InMemoryConversationStore) (cid : String)
    (now : ℤ) (h : odGet s.conversations cid = none) :
    s.get_conversation cid now = (none, s) := by
  unfold InMemoryConversationStore.get_conversation
  rw [h]

lemma get_conversation_found (s : InMemoryConversationStore) (cid : String)
    (now : ℤ) (c0 : Conversation) (hodget : odGet s.conversations cid = some c0)
    (hexp : now - c0.last_updated ≤ s.conversation_ttl) :
    s.get_conversation cid now
      = (some c0,
         { s with conversations := odDel s.conversations cid ++ [(cid, c0)] })
      := by
  unfold InMemoryConversationStore.get_conversation
  rw [hodget]
  dsimp only
  rw [if_neg (Int.not_lt.mpr hexp)]

lemma get_or_create_eq_found (svc : ConversationService)
    (cid client freshId : String) (now : ℤ)
    (hrate : (svc.limiter.is_allowed client now).1 = true)
    (hcid : cid ≠ "")
    (hid : MessageSanitizer.validate_conversation_id cid = .ok cid)
    (conv : Conversation)
    (hlook : (svc.store.get_conversation cid now).1 = some conv) :
    svc.get_or_create_conversation cid client now freshId
      = (.ok conv, ⟨(svc.store.get_conversation cid now).2,
          (svc.limiter.is_allowed client now).2⟩) := by
  unfold ConversationService.get_or_create_conversation
  have hne : (cid != "") = true := by simp [bne_iff_ne, hcid]
  simp [hrate, hne, hid, hlook]

lemma get_or_create_eq_create (svc : ConversationService)
    (cid client freshId : String) (now : ℤ)
    (hrate : (svc.limiter.is_allowed client now).1 = true)
    (hcid : cid ≠ "")
    (hid : MessageSanitizer.validate_conversation_id cid = .ok cid)
    (hlook : (svc.store.get_conversation cid now).1 = none) :
    svc.get_or_create_conversation cid client now freshId
      = (.ok (Conversation.create_new cid now),
         ⟨((svc.store.get_conversation cid now).2).save_conversation
            (Conversation.create_new cid now) now,
          (svc.limiter.is_allowed client now).2⟩) := by
  unfold ConversationService.get_or_create_conversation
  have hne : (cid != "") = true := by simp [bne_iff_ne, hcid]
  simp [hrate, hne, hid, hlook]

/-- Saving a freshly created (empty) conversation leaves zero messages held
under its id, whether or not eviction removes it. -/
lemma msgCount_save_empty (s : InMemoryConversationStore) (cid : String)
    (now : ℤ) :
    msgCount (s.save_conversation (Conversation.create_new cid now) now) cid
      = 0 := by
  have hsave : (s.save_conversation (Conversation.create_new cid now) now).conversations
      = evictLoop s.max_conversations
          (odDel s.conversations cid ++ [(cid, Conversation.create_new cid now)]) := by
    rw [save_conversations_eq]
    simp [Conversation.create_new]
  unfold msgCount
  cases hget : odGet (s.save_conversation
      (Conversation.create_new cid now) now).conversations cid with
  | none => rfl
  | some c =>
    obtain ⟨p, hp, hpk, hpv⟩ := odGet_mem hget
    rw [hsave, evictLoop_eq_drop] at hp
    have hp' := List.drop_subset _ _ hp
    rcases List.mem_append.mp hp' with h1 | h1
    · have hne := odDel_key_ne h1
      rw [hpk] at hne
      simp at hne
    · have hpeq : p = (cid, Conversation.create_new cid now) := by simpa using h1
      have hc : c = Conversation.create_new cid now := by
        rw [← hpv, hpeq]
      simp only []
      rw [hc]
      rfl

/-- C10: a non-empty raw input whose sanitized form is empty (whitespace-only
text, pure-tag text such as `"<b></b>"`, ...) makes `add_user_message` raise
the empty-content validation error instead of storing an empty message, and
the message count held under the conversation id is unchanged — given that
the rate limiter admits both checks on the path, the id is valid, and the
stored conversation (if any) is not expired. -/
theorem C10_confirmed (svc : ConversationService)
    (cid msg client freshId : String) (now : ℤ)
    (hmsg : msg ≠ "")
    (hsan : MessageSanitizer.sanitize_message msg = .ok "")
    (hrate1 : (svc.limiter.is_allowed client now).1 = true)
    (hrate2 : (((svc.limiter.is_allowed client now).2).is_allowed client now).1
      = true)
    (hcid : cid ≠ "")
    (hid : MessageSanitizer.validate_conversation_id cid = .ok cid)
    (hexp : ∀ c, odGet svc.store.conversations cid = some c →
      now - c.last_updated ≤ svc.store.conversation_ttl) :
    (svc.add_user_message cid msg client now freshId).1
      = .error "Message content cannot be empty" ∧
    msgCount ((svc.add_user_message cid msg client now freshId).2).store cid
      = msgCount svc.store cid := by
  have hadd : ∀ c : Conversation,
      c.add_message "user" "" now = .error "Message content cannot be empty" :=
    fun c => rfl
  unfold ConversationService.add_user_message
  simp only [hrate1, Bool.not_true, Bool.false_eq_true, if_false, hsan]
  cases hodget : odGet svc.store.conversations cid with
  | none =>
    have hgc := get_conversation_none svc.store cid now hodget
    have hr := get_or_create_eq_create ⟨svc.store,
      (svc.limiter.is_allowed client now).2⟩ cid client freshId now
      hrate2 hcid hid (by rw [hgc])
    simp only [hr, hadd]
    constructor
    · trivial
    · show msgCount ((svc.store.get_conversation cid now).2.save_conversation
        (Conversation.create_new cid now) now) cid = msgCount svc.store cid
      rw [msgCount_save_empty]
      unfold msgCount
      rw [hodget]
  | some c0 =>
    have hgc := get_conversation_found svc.store cid now c0 hodget
      (hexp c0 hodget)
    have hr := get_or_create_eq_found ⟨svc.store,
      (svc.limiter.is_allowed client now).2⟩ cid client freshId now
      hrate2 hcid hid c0 (by rw [hgc])
    simp only [hr, hadd]
    constructor
    · trivial
    · show msgCount (svc.store.get_conversation cid now).2 cid
        = msgCount svc.store cid
      rw [hgc]
      unfold msgCount
      rw [odGet_append_last, hodget]

/-- The closed witness of `C10_confirmed`: a single-space message on a fresh
service with a valid absent id. -/
theorem C10_witness :
    MessageSanitizer.sanitize_message " " = .ok "" ∧
    (freshService.add_user_message "abc" " " "client" 0 "fresh").1
      = .error "Message content cannot be empty" ∧
    msgCount ((freshService.add_user_message "abc" " " "client" 0 "fresh").2).store
      "abc" = msgCount freshService.store "abc" := by
  have h := C10_confirmed freshService "abc" " " "client" "fresh" 0
    (by decide) (by rfl) (by decide) (by decide) (by decide) (by rfl)
    (fun c hc => nomatch hc)
  exact ⟨by rfl, h.1, h.2⟩

/-! ### Sanitizer idempotence lemmas (C6) -/

lemma escapeChar_of_not_escapable (c : Char) (h : isEscapable c = false) :
    escapeChar c = [c] := by
  unfold isEscapable at h
  simp only [Bool.or_eq_false_iff] at h
  unfold escapeChar
  rw [if_neg (by simp [h.1.1.1.1]), if_neg (by simp [h.1.1.1.2]),
    if_neg (by simp [h.1.1.2]), if_neg (by simp [h.1.2]),
    if_neg (by simp [h.2])]

lemma mem_escapeChar (c d : Char) (h : d ∈ escapeChar c) :
    d ∈ ['&', 'a', 'm', 'p', ';', 'l', 't', 'g', 'q', 'u', 'o', '#', 'x', '2', '7']
      ∨ (d = c ∧ isEscapable c = false) := by
  by_cases hesc : isEscapable c = true
  · left
    unfold isEscapable at hesc
    unfold escapeChar at h
    rcases Bool.or_eq_true_iff.mp hesc with h5 | h5
    rotate_left
    · have hc : c = '\'' := by simpa using h5
      subst hc
      exact (by decide : ∀ x ∈ escapeChar '\'',
        x ∈ ['&', 'a', 'm', 'p', ';', 'l', 't', 'g', 'q', 'u', 'o', '#', 'x', '2', '7']) d h
    rcases Bool.or_eq_true_iff.mp h5 with h4 | h4
    rotate_left
    · have hc : c = '"' := by simpa using h4
      subst hc
      exact (by decide : ∀ x ∈ escapeChar '"',
        x ∈ ['&', 'a', 'm', 'p', ';', 'l', 't', 'g', 'q', 'u', 'o', '#', 'x', '2', '7']) d h
    rcases Bool.or_eq_true_iff.mp h4 with h3 | h3
    rotate_left
    · have hc : c = '>' := by simpa using h3
      subst hc
      exact (by decide : ∀ x ∈ escapeChar '>',
        x ∈ ['&', 'a', 'm', 'p', ';', 'l', 't', 'g', 'q', 'u', 'o', '#', 'x', '2', '7']) d h
    rcases Bool.or_eq_true_iff.mp h3 with h2 | h2
    · have hc : c = '&' := by simpa using h2
      subst hc
      exact (by decide : ∀ x ∈ escapeChar '&',
        x ∈ ['&', 'a', 'm', 'p', ';', 'l', 't', 'g', 'q', 'u', 'o', '#', 'x', '2', '7']) d h
    · have hc : c = '<' := by simpa using h2
      subst hc
      exact (by decide : ∀ x ∈ escapeChar '<',
        x ∈ ['&', 'a', 'm', 'p', ';', 'l', 't', 'g', 'q', 'u', 'o', '#', 'x', '2', '7']) d h
  · right
    rw [escapeChar_of_not_escapable c (Bool.not_eq_true _ ▸ hesc)] at h
    exact ⟨by simpa using h, Bool.not_eq_true _ ▸ hesc⟩

lemma mem_htmlEscape (l : List Char) (d : Char) (h : d ∈ htmlEscape l) :
    d ∈ ['&', 'a', 'm', 'p', ';', 'l', 't', 'g', 'q', 'u', 'o', '#', 'x', '2', '7']
      ∨ (d ∈ l ∧ isEscapable d = false) := by
  induction l with
  | nil => simp [htmlEscape] at h
  | cons c rest ih =>
    unfold htmlEscape at h
    rcases List.mem_append.mp h with h1 | h1
    · rcases mem_escapeChar c d h1 with h2 | ⟨rfl, h3⟩
      · exact Or.inl h2
      · exact Or.inr ⟨by simp, h3⟩
    · rcases ih h1 with h2 | ⟨h3, h4⟩
      · exact Or.inl h2
      · exact Or.inr ⟨by simp [h3], h4⟩

lemma htmlEscape_of_all_safe (l : List Char)
    (h : ∀ c ∈ l, isEscapable c = false) : htmlEscape l = l := by
  induction l with
  | nil => rfl
  | cons c rest ih =>
    unfold htmlEscape
    rw [escapeChar_of_not_escapable c (h c (by simp)),
      ih (fun d hd => h d (by simp [hd]))]
    rfl

lemma matchScriptTag_eq_none (c : Char) (rest : List Char) (h : c ≠ '<') :
    matchScriptTag (c :: rest) = none := by
  unfold matchScriptTag
  dsimp only
  rw [if_neg]
  simp [h]

lemma matchHtmlTag_eq_none (c : Char) (rest : List Char) (h : c ≠ '<') :
    matchHtmlTag (c :: rest) = none := by
  unfold matchHtmlTag
  cases rest with
  | nil => rfl
  | cons d t =>
    dsimp only
    rw [if_neg]
    simp [h]

lemma scriptSubF_id (l : List Char) :
    ∀ fuel, (∀ c ∈ l, c ≠ '<') → scriptSubF fuel l = l := by
  induction l with
  | nil =>
    intro fuel _
    cases fuel <;> rfl
  | cons c rest ih =>
    intro fuel h
    cases fuel with
    | zero => rfl
    | succ f =>
      unfold scriptSubF
      rw [matchScriptTag_eq_none c rest (h c (by simp))]
      rw [ih f (fun d hd => h d (by simp [hd]))]

lemma htmlSubF_id (l : List Char) :
    ∀ fuel, (∀ c ∈ l, c ≠ '<') → htmlSubF fuel l = l := by
  induction l with
  | nil =>
    intro fuel _
    cases fuel <;> rfl
  | cons c rest ih =>
    intro fuel h
    cases fuel with
    | zero => rfl
    | succ f =>
      unfold htmlSubF
      rw [matchHtmlTag_eq_none c rest (h c (by simp))]
      rw [ih f (fun d hd => h d (by simp [hd]))]

lemma scriptSub_id (l : List Char) (h : ∀ c ∈ l, c ≠ '<') : scriptSub l = l :=
  scriptSubF_id l l.length h

lemma htmlSub_id (l : List Char) (h : ∀ c ∈ l, c ≠ '<') : htmlSub l = l :=
  htmlSubF_id l l.length h

lemma mem_collapseWsAux (l : List Char) :
    ∀ (b : Bool) (c : Char), c ∈ collapseWsAux b l →
      c = ' ' ∨ (c ∈ l ∧ pyIsSpace c = false) := by
  induction l with
  | nil =>
    intro b c h
    simp [collapseWsAux] at h
  | cons hd rest ih =>
    intro b c h
    unfold collapseWsAux at h
    by_cases hP : pyIsSpace hd = true
    · rw [if_pos hP] at h
      cases b with
      | true =>
        rcases ih true c h with h1 | ⟨h2, h3⟩
        · exact Or.inl h1
        · exact Or.inr ⟨by simp [h2], h3⟩
      | false =>
        simp only [Bool.false_eq_true, if_false] at h
        rcases List.mem_cons.mp h with rfl | h1
        · exact Or.inl rfl
        · rcases ih true c h1 with h2 | ⟨h3, h4⟩
          · exact Or.inl h2
          · exact Or.inr ⟨by simp [h3], h4⟩
    · rw [if_neg hP] at h
      rcases List.mem_cons.mp h with rfl | h1
      · exact Or.inr ⟨by simp, Bool.not_eq_true _ ▸ hP⟩
      · rcases ih false c h1 with h2 | ⟨h3, h4⟩
        · exact Or.inl h2
        · exact Or.inr ⟨by simp [h3], h4⟩

lemma collapseWsAux_true_head (l : List Char) :
    ∀ c t, collapseWsAux true l = c :: t → pyIsSpace c = false := by
  induction l with
  | nil =>
    intro c t h
    simp [collapseWsAux] at h
  | cons hd rest ih =>
    intro c t h
    unfold collapseWsAux at h
    by_cases hP : pyIsSpace hd = true
    · rw [if_pos hP] at h
      exact ih c t h
    · rw [if_neg hP] at h
      have hc : hd = c := by
        have := List.cons.injEq hd (collapseWsAux false rest) c t ▸ h
        exact (List.cons.inj h).1
      rw [← hc]
      exact Bool.not_eq_true _ ▸ hP

lemma chain_collapseWsAux (l : List Char) :
    ∀ b, List.Chain'
      (fun a d => ¬(pyIsSpace a = true ∧ pyIsSpace d = true))
      (collapseWsAux b l) := by
  induction l with
  | nil =>
    intro b
    simp [collapseWsAux]
  | cons hd rest ih =>
    intro b
    unfold collapseWsAux
    by_cases hP : pyIsSpace hd = true
    · rw [if_pos hP]
      cases b with
      | true => exact ih true
      | false =>
        simp only [Bool.false_eq_true, if_false]
        rw [List.chain'_cons']
        refine ⟨?_, ih true⟩
        intro y hy
        rcases hhead : collapseWsAux true rest with _ | ⟨c, t⟩
        · rw [hhead] at hy
          simp at hy
        · rw [hhead] at hy
          simp only [List.head?_cons, Option.mem_def, Option.some.injEq] at hy
          rw [← hy]
          intro ⟨_, hc⟩
          rw [collapseWsAux_true_head rest c t hhead] at hc
          cases hc
    · rw [if_neg hP]
      rw [List.chain'_cons']
      refine ⟨?_, ih false⟩
      intro y _
      intro ⟨ha, _⟩
      rw [ha] at hP
      exact hP rfl

lemma collapseWsAux_fix (l : List Char)
    (hA : ∀ c ∈ l, pyIsSpace c = true → c = ' ')
    (hC : List.Chain'
      (fun a d => ¬(pyIsSpace a = true ∧ pyIsSpace d = true)) l) :
    collapseWsAux false l = l ∧
    ((∀ c t, l = c :: t → pyIsSpace c = false) → collapseWsAux true l = l) := by
  induction l with
  | nil => exact ⟨rfl, fun _ => rfl⟩
  | cons hd rest ih =>
    have hctail : List.Chain'
        (fun a d => ¬(pyIsSpace a = true ∧ pyIsSpace d = true)) rest :=
      (List.chain'_cons'.mp hC).2
    have hatail : ∀ c ∈ rest, pyIsSpace c = true → c = ' ' :=
      fun c hc => hA c (by simp [hc])
    have ihrest := ih hatail hctail
    constructor
    · by_cases hP : pyIsSpace hd = true
      · have hsp : hd = ' ' := hA hd (by simp) hP
        unfold collapseWsAux
        rw [if_pos hP]
        simp only [Bool.false_eq_true, if_false]
        have hresthead : ∀ c t, rest = c :: t → pyIsSpace c = false := by
          intro c t hct
          have hR := (List.chain'_cons'.mp hC).1 c (by simp [hct])
          by_contra hcp
          exact hR ⟨hP, by simpa using hcp⟩
        rw [ihrest.2 hresthead, hsp]
      · unfold collapseWsAux
        rw [if_neg hP, ihrest.1]
    · intro hhead
      have hPhd : pyIsSpace hd = false := hhead hd rest rfl
      unfold collapseWsAux
      rw [if_neg (by simp [hPhd]), ihrest.1]

lemma dropWhile_head_not (p : Char → Bool) :
    ∀ (l : List Char) (c : Char), (l.dropWhile p).head? = some c → p c = false := by
  intro l
  induction l with
  | nil =>
    intro c h
    simp at h
  | cons a t ih =>
    intro c h
    by_cases hp : p a = true
    · rw [List.dropWhile_cons, if_pos hp] at h
      exact ih c h
    · rw [List.dropWhile_cons, if_neg hp] at h
      simp only [List.head?_cons, Option.some.injEq] at h
      rw [← h]
      exact Bool.not_eq_true _ ▸ hp

lemma stripWs_within (z : List Char) : stripWs z <:+: z := by
  obtain ⟨pre1, hpre1⟩ := List.dropWhile_suffix (l := z) pyIsSpace
  obtain ⟨pre2, hpre2⟩ :=
    List.dropWhile_suffix (l := (z.dropWhile pyIsSpace).reverse) pyIsSpace
  refine ⟨pre1, pre2.reverse, ?_⟩
  have hF : z.dropWhile pyIsSpace
      = stripWs z ++ pre2.reverse := by
    unfold stripWs
    calc z.dropWhile pyIsSpace
        = (z.dropWhile pyIsSpace).reverse.reverse := by rw [List.reverse_reverse]
      _ = (pre2 ++ (z.dropWhile pyIsSpace).reverse.dropWhile pyIsSpace).reverse := by
          rw [hpre2]
      _ = ((z.dropWhile pyIsSpace).reverse.dropWhile pyIsSpace).reverse
            ++ pre2.reverse := by rw [List.reverse_append]
  rw [List.append_assoc, ← hF, hpre1]

lemma stripWs_head_not (z : List Char) (c : Char)
    (h : (stripWs z).head? = some c) : pyIsSpace c = false := by
  unfold stripWs at h
  obtain ⟨pre2, hpre2⟩ :=
    List.dropWhile_suffix (l := (z.dropWhile pyIsSpace).reverse) pyIsSpace
  set Y := (z.dropWhile pyIsSpace).reverse.dropWhile pyIsSpace with hY
  have hFY : z.dropWhile pyIsSpace = Y.reverse ++ pre2.reverse := by
    calc z.dropWhile pyIsSpace
        = (z.dropWhile pyIsSpace).reverse.reverse := by rw [List.reverse_reverse]
      _ = (pre2 ++ Y).reverse := by rw [hpre2]
      _ = Y.reverse ++ pre2.reverse := by rw [List.reverse_append]
  have hyne : Y.reverse ≠ [] := by
    intro hnil
    rw [hnil] at h
    simp at h
  have hhead : (z.dropWhile pyIsSpace).head? = some c := by
    rw [hFY]
    cases hYr : Y.reverse with
    | nil => exact absurd hYr hyne
    | cons a t =>
      rw [hYr] at h
      simp only [List.head?_cons, Option.some.injEq] at h
      simp [hYr, h]
  exact dropWhile_head_not pyIsSpace z c hhead

lemma stripWs_getLast_not (z : List Char) (c : Char)
    (h : (stripWs z).getLast? = some c) : pyIsSpace c = false := by
  unfold stripWs at h
  rw [List.getLast?_reverse] at h
  exact dropWhile_head_not pyIsSpace _ c h

lemma stripWs_fix (l : List Char)
    (hh : ∀ c, l.head? = some c → pyIsSpace c = false)
    (hl : ∀ c, l.getLast? = some c → pyIsSpace c = false) :
    stripWs l = l := by
  unfold stripWs
  have h1 : l.dropWhile pyIsSpace = l := by
    cases l with
    | nil => rfl
    | cons a t =>
      rw [List.dropWhile_cons, if_neg (by simp [hh a (by simp)])]
  rw [h1]
  have h2 : l.reverse.dropWhile pyIsSpace = l.reverse := by
    cases hr : l.reverse with
    | nil => rfl
    | cons a t =>
      have ha : l.getLast? = some a := by
        rw [List.getLast?_eq_head?_reverse, hr]
        rfl
      rw [List.dropWhile_cons, if_neg (by simp [hl a ha])]
  rw [h2, List.reverse_reverse]

/-- The whitespace-normalization passes are jointly idempotent. -/
lemma sanitize_norm_fix (u : List Char) :
    stripWs (collapseWs (stripWs (collapseWs u))) = stripWs (collapseWs u) := by
  have hA : ∀ c ∈ stripWs (collapseWs u), pyIsSpace c = true → c = ' ' := by
    intro c hc hP
    have hcz : c ∈ collapseWs u := (stripWs_within (collapseWs u)).subset hc
    rcases mem_collapseWsAux u false c hcz with h | ⟨_, hns⟩
    · exact h
    · rw [hP] at hns
      cases hns
  have hChain : List.Chain'
      (fun a d => ¬(pyIsSpace a = true ∧ pyIsSpace d = true))
      (stripWs (collapseWs u)) :=
    List.Chain'.infix (chain_collapseWsAux u false) (stripWs_within (collapseWs u))
  have hcoll : collapseWs (stripWs (collapseWs u)) = stripWs (collapseWs u) :=
    (collapseWsAux_fix _ hA hChain).1
  rw [show collapseWs (stripWs (collapseWs u))
      = collapseWsAux false (stripWs (collapseWs u)) from rfl] at hcoll
  rw [show collapseWs (stripWs (collapseWs u))
      = collapseWsAux false (stripWs (collapseWs u)) from rfl]
  rw [hcoll]
  exact stripWs_fix _ (fun c hc => stripWs_head_not _ c hc)
    (fun c hc => stripWs_getLast_not _ c hc)

lemma sanitize_message_ok_data (content y : String)
    (h : MessageSanitizer.sanitize_message content = .ok y) :
    y.data
      = stripWs (collapseWs (htmlEscape (htmlSub (scriptSub content.data)))) := by
  unfold MessageSanitizer.sanitize_message at h
  by_cases h1 : MessageSanitizer.MAX_MESSAGE_LENGTH < content.length
  · simp [h1] at h
  · by_cases h2 : hasDangerousUrl (scriptSub content.data) = true
    · simp [h1, h2] at h
    · simp only [h1, if_false, h2, Bool.false_eq_true] at h
      injection h with h3
      rw [← h3]

/-- C6 (amended): a second sanitization pass is the identity on a sanitized
output that contains no ampersand (and is itself accepted).  In general the
claim fails: HTML escaping re-escapes `&`, so any output containing an
entity (`&amp;`, `&lt;`, ...) is escaped differently by the second pass —
see `C6_cex`. -/
theorem C6_amended (x y z : String)
    (hx : MessageSanitizer.sanitize_message x = .ok y)
    (hamp : '&' ∉ y.data)
    (hy : MessageSanitizer.sanitize_message y = .ok z) :
    z = y := by
  have hyd := sanitize_message_ok_data x y hx
  have hzd := sanitize_message_ok_data y z hy
  have hsafe : ∀ c ∈ y.data, isEscapable c = false := by
    intro c hc
    have hcamp : c ≠ '&' := fun hceq => hamp (hceq ▸ hc)
    rw [hyd] at hc
    have hc2 : c ∈ collapseWs (htmlEscape (htmlSub (scriptSub x.data))) :=
      (stripWs_within _).subset hc
    rcases mem_collapseWsAux _ false c hc2 with rfl | ⟨hcE, _⟩
    · decide
    · rcases mem_htmlEscape _ c hcE with hmaster | ⟨_, hok⟩
      · rcases (by decide : ∀ d ∈ ['&', 'a', 'm', 'p', ';', 'l', 't', 'g',
            'q', 'u', 'o', '#', 'x', '2', '7'],
            d = '&' ∨ isEscapable d = false) c hmaster with hca | hcf
        · exact absurd hca hcamp
        · exact hcf
      · exact hok
  have hnolt : ∀ c ∈ y.data, c ≠ '<' := by
    intro c hc hceq
    have hf := hsafe c hc
    rw [hceq] at hf
    exact absurd hf (by decide)
  rw [scriptSub_id y.data hnolt, htmlSub_id y.data hnolt,
    htmlEscape_of_all_safe y.data hsafe, hyd, sanitize_norm_fix, ← hyd] at hzd
  cases z with
  | mk zd =>
    cases y with
    | mk yd =>
      simp only [String.data] at hzd
      rw [hzd]

/-- The closed witness of `C6_amended`: a double space collapses once and the
result (ampersand-free) is a fixed point of the sanitizer. -/
theorem C6_witness :
    MessageSanitizer.sanitize_message "hello  world" = .ok "hello world" ∧
    '&' ∉ ("hello world" : String).data ∧
    MessageSanitizer.sanitize_message "hello world" = .ok "hello world" ∧
    ("hello world" : String) = "hello world" := by
  refine ⟨by rfl, by decide, by rfl, ?_⟩
  exact C6_amended "hello  world" "hello world" "hello world"
    (by rfl) (by decide) (by rfl)

end Wodrag
